import Mathlib

/-!
Shallow embedding of the netex-parse graph compiler (src/graph.rs) and the
relevant pure parsing helpers (src/parser.rs).

Modelling conventions:
* Rust `u64` identifiers are modelled as `Nat`; `u16`/`u32` values as `Nat`
  (with explicit `% 2 ^ 16` wrapping where the source arithmetic can wrap).
* `f32` coordinates are only ever copied by the compiler, never computed on,
  so they are modelled by an opaque numeric payload (`Int`).
* Rust `HashMap` is modelled as an association list together with a `lookup`
  that returns the most recently inserted binding for a key; `insert` is
  modelled by consing (last write wins), `entry(..).or_insert(..)` by an
  insert-if-absent helper (first write wins).
* Every Rust lookup that can panic (`[...]`, `expect`, `unwrap`) is modelled
  in the `Option` monad; a panicking compilation is `none` (no graph).
* The `rayon` map-reduce over service journeys is modelled by the equivalent
  sequential left fold over the concatenation of all datasets' journeys: the
  reduce step unions edge keys and concatenates journey lists, so the key set
  and the per-key journey multiset agree with the parallel computation; only
  the intra-edge journey order (explicitly unspecified in the source) is
  fixed by the sequential model.
-/

namespace Netex

/-- Input record: a scheduled stop point (parser.rs `ScheduledStopPoint`). -/
structure ScheduledStopPoint where
  id : Nat
  short_name : String
  long : Int
  lat : Int
deriving Repr, DecidableEq

/-- Input record: one stop reference inside a journey pattern. -/
structure StopPointInJourneyPattern where
  id : Nat
  scheduled_stop_point : Nat
deriving Repr, DecidableEq

/-- Input record: a service journey pattern (ordered stop refs plus its line). -/
structure ServiceJourneyPattern where
  id : Nat
  line : Nat
  stops : List StopPointInJourneyPattern
deriving Repr, DecidableEq

/-- Input record: a timetabled passing time of a service journey. -/
structure TimetabledPassingTime where
  stop_point_in_journey_pattern : Nat
  arrival : Nat
  departure : Nat
deriving Repr, DecidableEq

/-- Input record: a service journey. -/
structure ServiceJourney where
  passing_times : List TimetabledPassingTime
  day_type : Nat
  pattern_ref : Nat
  transport_mode : String
deriving Repr, DecidableEq

/-- Input record: an operating period (calendar date range plus day bitmap).
`from_` and `to` are YYMMDD integers, `valid_day_bits` the raw packed bytes. -/
structure UicOperatingPeriod where
  id : Nat
  from_ : Nat
  to_ : Nat
  valid_day_bits : List Nat
deriving Repr, DecidableEq

/-- Input record: binds a day type to an operating period. -/
structure DayTypeAssignment where
  operating_period : Nat
  day_type : Nat
  is_available : Bool
deriving Repr, DecidableEq

/-- Input record: a line. -/
structure Line where
  id : Nat
  short_name : String
  authority : Nat
deriving Repr, DecidableEq

/-- Input record: an authority. -/
structure Authority where
  id : Nat
  short_name : String
deriving Repr, DecidableEq

/-- One parsed dataset (parser.rs `NetexData`, fields as used by graph.rs). -/
structure NetexData where
  scheduled_stop_points : List ScheduledStopPoint
  service_journey_patterns : List ServiceJourneyPattern
  lines : List Line
  authorities : List Authority
  operating_periods : List UicOperatingPeriod
  day_type_assignments : List DayTypeAssignment
  service_journeys : List ServiceJourney
deriving Repr

/-- Output: a graph node (graph.rs `Node`). -/
structure Node where
  short_name : String
  long : Int
  lat : Int
deriving Repr, DecidableEq

instance : Inhabited Node := ⟨⟨"", 0, 0⟩⟩

/-- Output: one scheduled trip between two adjacent stops (graph.rs `Journey`). -/
structure Journey where
  departure : Nat
  arrival : Nat
  transport_mode : String
  operating_period : Nat
  line : String
  controller : String
deriving Repr, DecidableEq

/-- Output: an edge-local operating period (graph.rs `OperatingPeriod`);
`valid_day_bits` is the base64 text encoding (as ASCII bytes),
`valid_day` the raw bytes. -/
structure OperatingPeriod where
  from_ : Nat
  to_ : Nat
  valid_day_bits : List Nat
  valid_day : List Nat
deriving Repr, DecidableEq

instance : Inhabited OperatingPeriod := ⟨⟨0, 0, [], []⟩⟩

/-- Output: an edge's timetable (graph.rs `Timetable`). -/
structure Timetable where
  journeys : List Journey
  periods : List OperatingPeriod
deriving Repr, DecidableEq

/-- Output: a directed edge (graph.rs `Edge`). -/
structure Edge where
  start_node : Nat
  end_node : Nat
  timetable : Timetable
deriving Repr, DecidableEq

/-- Output: the compiled graph (graph.rs `Graph`). -/
structure Graph where
  nodes : List Node
  edges : List Edge
deriving Repr, DecidableEq

/-- graph.rs `Indices`: canonical node index plus the (dataset, stop) position
of the stop record that introduced the node. -/
structure Indices where
  node : Nat
  data : Nat
  stop : Nat
deriving Repr, DecidableEq

/-- Association-list model of `HashMap`: return the binding for `k` that was
inserted last (bindings are consed to the front). -/
def lookup {α β : Type} [DecidableEq α] (m : List (α × β)) (k : α) : Option β :=
  (m.find? (fun p => decide (p.1 = k))).map (·.2)

/-- Rust `HashMap::insert`: the new binding shadows any previous one (last write wins). -/
def insertLWW {α β : Type} (m : List (α × β)) (k : α) (v : β) : List (α × β) :=
  (k, v) :: m

/-- Rust `HashMap::entry(k).or_insert(v)`: insert only when `k` is absent
(first write wins). -/
def insertFWW {α β : Type} [DecidableEq α] (m : List (α × β)) (k : α) (v : β) :
    List (α × β) :=
  match lookup m k with
  | some _ => m
  | none => (k, v) :: m

/-- All stop points of all datasets, in dataset order then in-dataset order. -/
def allStops (data : List NetexData) : List ScheduledStopPoint :=
  data.flatMap (·.scheduled_stop_points)

/-- All service journeys of all datasets, in dataset order. -/
def allJourneys (data : List NetexData) : List ServiceJourney :=
  data.flatMap (·.service_journeys)

/-- The concatenation of all datasets' operating periods, in dataset order
then in-dataset order (the enumeration that defines global period indices). -/
def allPeriods (data : List NetexData) : List UicOperatingPeriod :=
  data.flatMap (·.operating_periods)

/-- The flattened stop points together with their (dataset index, stop index)
positions: the iteration space of the node-deduplication loop in
`Graph::from_data` (the nested enumerated `for` loops). -/
def stopsWithIndices (data : List NetexData) : List (Nat × Nat × ScheduledStopPoint) :=
  data.enum.flatMap fun d =>
    d.2.scheduled_stop_points.enum.map fun s => (d.1, s.1, s.2)

/-- State of the node-deduplication loop: `node_map` (short name to `Indices`),
`ref_to_node_idx` (stop id to `Indices`) and the dense node counter. -/
structure DedupState where
  node_map : List (String × Indices)
  ref_to_node_idx : List (Nat × Indices)
  counter : Nat

/-- One iteration of the node-deduplication loop (graph.rs lines 76-91):
if the short name was seen, only record the alias; otherwise assign the next
dense node index and record both the name and the alias. -/
def dedupStep (st : DedupState) (t : Nat × Nat × ScheduledStopPoint) : DedupState :=
  match lookup st.node_map t.2.2.short_name with
  | some idx =>
      { st with ref_to_node_idx := insertLWW st.ref_to_node_idx t.2.2.id idx }
  | none =>
      let idx : Indices := ⟨st.counter, t.1, t.2.1⟩
      { node_map := insertLWW st.node_map t.2.2.short_name idx
        ref_to_node_idx := insertLWW st.ref_to_node_idx t.2.2.id idx
        counter := st.counter + 1 }

/-- The full node-deduplication pass. -/
def dedupData (data : List NetexData) : DedupState :=
  (stopsWithIndices data).foldl dedupStep ⟨[], [], 0⟩

/-- Fetch the stop record addressed by an `Indices` value. -/
def stopAt (data : List NetexData) (idx : Indices) : Option ScheduledStopPoint :=
  (data.get? idx.data).bind fun d => d.scheduled_stop_points.get? idx.stop

/-- Build the dense node vector (graph.rs lines 92-100): position `j` receives
the stop record addressed by the unique `node_map` entry whose node index is
`j` (the source writes `nodes[idx.node]` once per entry of `node_map`). -/
def buildNodes (data : List NetexData) (st : DedupState) : List Node :=
  (List.range st.counter).map fun j =>
    match st.node_map.find? (fun p => decide (p.2.node = j)) with
    | some p =>
        match stopAt data p.2 with
        | some s => ⟨s.short_name, s.long, s.lat⟩
        | none => default
    | none => default

/-- graph.rs lines 104-113: pattern-point id to scheduled-stop-point ref,
first write wins (`entry(..).or_insert(..)`), iterating all datasets'
patterns' stops in order. -/
def buildPointMap (data : List NetexData) : List (Nat × Nat) :=
  (data.flatMap fun d => d.service_journey_patterns.flatMap (·.stops)).foldl
    (fun m s => insertFWW m s.id s.scheduled_stop_point) []

/-- graph.rs lines 115-120: line id to line, last write wins. -/
def buildLines (data : List NetexData) : List (Nat × Line) :=
  (data.flatMap (·.lines)).foldl (fun m l => insertLWW m l.id l) []

/-- graph.rs lines 122-127: authority id to authority, last write wins. -/
def buildAuthorities (data : List NetexData) : List (Nat × Authority) :=
  (data.flatMap (·.authorities)).foldl (fun m a => insertLWW m a.id a) []

/-- graph.rs lines 129-134: pattern id to line ref, last write wins. -/
def buildPatternRefToLine (data : List NetexData) : List (Nat × Nat) :=
  (data.flatMap (·.service_journey_patterns)).foldl
    (fun m p => insertLWW m p.id p.line) []

/-- graph.rs lines 136-143: period id to its dense global index over the
enumerated concatenation of all datasets' periods, last write wins. -/
def buildPeriodMap (data : List NetexData) : List (Nat × Nat) :=
  (allPeriods data).enum.foldl (fun m ip => insertLWW m ip.2.id ip.1) []

/-- graph.rs lines 144-147: day type id to its assignment, last write wins. -/
def buildDayTypeAssignments (data : List NetexData) : List (Nat × DayTypeAssignment) :=
  data.flatMap (·.day_type_assignments) |>.foldl
    (fun m dta => insertLWW m dta.day_type dta) []

/-- All the read-only lookup tables built before the parallel edge phase. -/
structure Resolver where
  ref_to_node_idx : List (Nat × Indices)
  point_map : List (Nat × Nat)
  lines : List (Nat × Line)
  authorities : List (Nat × Authority)
  pattern_ref_to_line : List (Nat × Nat)
  period_map : List (Nat × Nat)
  day_type_assignments : List (Nat × DayTypeAssignment)

/-- Bundle the identity-resolution tables. -/
def mkResolver (data : List NetexData) (st : DedupState) : Resolver :=
  ⟨st.ref_to_node_idx, buildPointMap data, buildLines data, buildAuthorities data,
    buildPatternRefToLine data, buildPeriodMap data, buildDayTypeAssignments data⟩

/-- Rust `slice::windows(2)` as a list of adjacent pairs. -/
def windows2 {α : Type} : List α → List (α × α)
  | a :: b :: rest => (a, b) :: windows2 (b :: rest)
  | _ => []

/-- The edge accumulator: ordered (start, end) node pair to the journey
records pushed onto that edge, in push order. -/
abbrev EdgeMap : Type := List ((Nat × Nat) × List Journey)

/-- Rust `entry(key).or_insert(empty edge)` followed by pushing one journey:
append to the existing key's journey list, or append a fresh singleton
binding when the key is new. -/
def pushJourney (em : EdgeMap) (k : Nat × Nat) (j : Journey) : EdgeMap :=
  match em with
  | [] => [(k, [j])]
  | (k', js) :: rest =>
      if k' = k then (k', js ++ [j]) :: rest else (k', js) :: pushJourney rest k j

/-- One window of the edge-building loop (graph.rs lines 155-183): resolve
both stops to canonical nodes, the day type to a global period index and the
pattern to line and authority, then push one journey record; any failed
lookup is a panic in the source and aborts compilation. -/
def processWindow (r : Resolver) (j : ServiceJourney) (em : EdgeMap)
    (w : TimetabledPassingTime × TimetabledPassingTime) : Option EdgeMap :=
  match lookup r.point_map w.1.stop_point_in_journey_pattern with
  | none => none
  | some preRef =>
  match lookup r.ref_to_node_idx preRef with
  | none => none
  | some startIdx =>
  match lookup r.point_map w.2.stop_point_in_journey_pattern with
  | none => none
  | some curRef =>
  match lookup r.ref_to_node_idx curRef with
  | none => none
  | some endIdx =>
  match lookup r.day_type_assignments j.day_type with
  | none => none
  | some dta =>
  match lookup r.pattern_ref_to_line j.pattern_ref with
  | none => none
  | some lineRef =>
  match lookup r.lines lineRef with
  | none => none
  | some line =>
  match lookup r.authorities line.authority with
  | none => none
  | some auth =>
  match lookup r.period_map dta.operating_period with
  | none => none
  | some gidx =>
    some (pushJourney em (startIdx.node, endIdx.node)
      ⟨w.1.departure, w.2.arrival, j.transport_mode, gidx, line.short_name,
        auth.short_name⟩)

/-- Process one service journey: slide the size-2 window over its passing
times. -/
def processJourney (r : Resolver) (em : EdgeMap) (j : ServiceJourney) :
    Option EdgeMap :=
  (windows2 j.passing_times).foldlM (processWindow r j) em

/-- The whole edge-building phase over all datasets' service journeys. -/
def buildEdgeMap (data : List NetexData) (r : Resolver) : Option EdgeMap :=
  (allJourneys data).foldlM (processJourney r) []

/-- graph.rs `Graph::lookup_operating_period`: subtract each dataset's period
count in dataset order until the remainder indexes into a dataset. -/
def lookup_operating_period : List NetexData → Nat → Option UicOperatingPeriod
  | [], _ => none
  | d :: rest, g =>
      if g < d.operating_periods.length then d.operating_periods.get? g
      else lookup_operating_period rest (g - d.operating_periods.length)

/-- The standard base64 alphabet: sextet value to ASCII code. -/
def sextetToChar (n : Nat) : Nat :=
  if n < 26 then 65 + n
  else if n < 52 then 97 + (n - 26)
  else if n < 62 then 48 + (n - 52)
  else if n = 62 then 43
  else 47

/-- The standard base64 alphabet, inverted: ASCII code to sextet value. -/
def charToSextet (c : Nat) : Option Nat :=
  if 65 ≤ c ∧ c ≤ 90 then some (c - 65)
  else if 97 ≤ c ∧ c ≤ 122 then some (c - 97 + 26)
  else if 48 ≤ c ∧ c ≤ 57 then some (c - 48 + 52)
  else if c = 43 then some 62
  else if c = 47 then some 63
  else none

/-- Modelled from the spec: the external base64 crate's `encode` (RFC 4648
standard alphabet with `=` padding), the "text-safe encoding" of §4.3; bytes
in, ASCII codes out. -/
def base64encode : List Nat → List Nat
  | [] => []
  | [b0] => [sextetToChar (b0 / 4), sextetToChar (b0 % 4 * 16), 61, 61]
  | [b0, b1] =>
      [sextetToChar (b0 / 4), sextetToChar (b0 % 4 * 16 + b1 / 16),
        sextetToChar (b1 % 16 * 4), 61]
  | b0 :: b1 :: b2 :: rest =>
      sextetToChar (b0 / 4) :: sextetToChar (b0 % 4 * 16 + b1 / 16) ::
        sextetToChar (b1 % 16 * 4 + b2 / 64) :: sextetToChar (b2 % 64) ::
        base64encode rest

/-- Modelled from the spec: base64 decoding (RFC 4648), the inverse direction
of the round trip required by §8; ASCII codes in, bytes out. -/
def base64decode : List Nat → Option (List Nat)
  | [] => some []
  | c0 :: c1 :: c2 :: c3 :: rest =>
      if c2 = 61 ∧ c3 = 61 ∧ rest = [] then do
        let s0 ← charToSextet c0
        let s1 ← charToSextet c1
        pure [s0 * 4 + s1 / 16]
      else if c3 = 61 ∧ rest = [] then do
        let s0 ← charToSextet c0
        let s1 ← charToSextet c1
        let s2 ← charToSextet c2
        pure [s0 * 4 + s1 / 16, s1 % 16 * 16 + s2 / 4]
      else do
        let s0 ← charToSextet c0
        let s1 ← charToSextet c1
        let s2 ← charToSextet c2
        let s3 ← charToSextet c3
        let tail ← base64decode rest
        pure ((s0 * 4 + s1 / 16) :: (s1 % 16 * 16 + s2 / 4) :: (s2 % 4 * 64 + s3) :: tail)
  | _ => none

/-- Build the global-to-local period index map of one edge (graph.rs lines
205-213): scan the journeys in order, assigning the next unused local index
to each new global index. The running counter always equals the size of the
map, so the map's length stands in for the counter. -/
def buildGlobalToLocal (journeys : List Journey) : List (Nat × Nat) :=
  journeys.foldl (fun m j => insertFWW m j.operating_period m.length) []

/-- Calendar compaction of one edge (graph.rs lines 204-232): assign local
indices in first-encounter order over the journeys, build the local period
table via `lookup_operating_period` (position `l` receives the period of the
global index mapped to `l`), and rewrite every journey's global period index
to its local index; a failed lookup is a panic. -/
def compactEdge (data : List NetexData) (k : Nat × Nat) (journeys : List Journey) :
    Option Edge :=
  ((List.range (buildGlobalToLocal journeys).length).mapM fun l =>
    ((buildGlobalToLocal journeys).find? fun p => decide (p.2 = l)).bind fun p =>
      (lookup_operating_period data p.1).map fun uic_op =>
        (⟨uic_op.from_, uic_op.to_, base64encode uic_op.valid_day_bits,
          uic_op.valid_day_bits⟩ : OperatingPeriod)).bind fun local_ops =>
  (journeys.mapM fun j =>
    (lookup (buildGlobalToLocal journeys) j.operating_period).map fun l =>
      { j with operating_period := l }).map fun journeys' =>
  ⟨k.1, k.2, ⟨journeys', local_ops⟩⟩

/-- graph.rs `Graph::from_data`: the full compilation pipeline — dedup the
nodes, build the lookup tables, build the edge accumulator over all service
journeys, compact each edge's calendar, and assemble the graph. Returns
`none` when the source would panic (no graph is produced). -/
def from_data (data : List NetexData) : Option Graph :=
  (buildEdgeMap data (mkResolver data (dedupData data))).bind fun em =>
    (em.mapM fun ke => compactEdge data ke.1 ke.2).map fun edges =>
      ⟨buildNodes data (dedupData data), edges⟩

/-- parser.rs `NetexData::parse_minutes`: fixed-position hh:mm digits to
minute of day, with `u16` wrapping arithmetic made explicit (the source
subtracts ASCII zero in `u16`). Input is the byte string. -/
def parse_minutes (bytes : List Nat) : Nat :=
  ((((bytes.getD 0 0 % 65536 + 65536 - 48) % 65536 * 600 % 65536
        + (bytes.getD 1 0 % 65536 + 65536 - 48) % 65536 * 60 % 65536) % 65536
      + (bytes.getD 3 0 % 65536 + 65536 - 48) % 65536 * 10 % 65536) % 65536
    + (bytes.getD 4 0 % 65536 + 65536 - 48) % 65536) % 65536

/-- parser.rs `NetexData::parse_day_bit_group`: eight ASCII day characters to
one byte, least significant bit first (the source ors `(c - 48) << i`). -/
def parse_day_bit_group (value : List Nat) : Nat :=
  (List.range 8).foldl
    (fun acc i => acc ||| (((value.getD i 0 + 256 - 48) % 256) <<< i) % 256) 0

/-- parser.rs `NetexData::parse_day_bits`: zero-pad the day string to a
multiple of eight and pack each chunk of eight characters into one byte. -/
def parse_day_bits (value : List Nat) : List Nat :=
  let pad_len := 8 - value.length % 8
  let padded := if pad_len ≠ 8 then value ++ List.replicate pad_len 48 else value
  (List.range (padded.length / 8)).map fun i =>
    parse_day_bit_group (padded.drop (8 * i) |>.take 8)

/-! Specification-side definitions, stated independently of the pipeline and
compared against it in the theorems below. -/

/-- Specification-side: keep only the first element for each key `f a`, in
first-seen order. -/
def dedupFirstBy {α β : Type} [DecidableEq β] (f : α → β) (l : List α) : List α :=
  l.foldl
    (fun acc a => if acc.any (fun b => decide (f b = f a)) then acc else acc ++ [a])
    []

/-- Specification-side: the value of the binding for `k` that appears last in
the write-ordered pair list (last write wins). -/
def lastWins {α β : Type} [DecidableEq α] (l : List (α × β)) (k : α) : Option β :=
  lookup l.reverse k

/-- The flattened (id, line) writes, in write order. -/
def linePairs (data : List NetexData) : List (Nat × Line) :=
  (data.flatMap (·.lines)).map fun l => (l.id, l)

/-- The flattened (id, authority) writes, in write order. -/
def authorityPairs (data : List NetexData) : List (Nat × Authority) :=
  (data.flatMap (·.authorities)).map fun a => (a.id, a)

/-- The flattened (pattern id, line ref) writes, in write order. -/
def patternLinePairs (data : List NetexData) : List (Nat × Nat) :=
  (data.flatMap (·.service_journey_patterns)).map fun p => (p.id, p.line)

/-- The flattened (day type, assignment) writes, in write order. -/
def dayTypePairs (data : List NetexData) : List (Nat × DayTypeAssignment) :=
  (data.flatMap (·.day_type_assignments)).map fun dta => (dta.day_type, dta)

/-- The flattened (pattern-point id, scheduled-stop-point ref) writes, in
write order. -/
def pointPairs (data : List NetexData) : List (Nat × Nat) :=
  (data.flatMap fun d => d.service_journey_patterns.flatMap (·.stops)).map
    fun s => (s.id, s.scheduled_stop_point)

/-- The flattened (period id, global index) writes, in write order. -/
def periodPairs (data : List NetexData) : List (Nat × Nat) :=
  (allPeriods data).enum.map fun ip => (ip.2.id, ip.1)

/-- The canonical node index a stop-point-in-journey-pattern reference
resolves to, through the two-stage mapping the edge builder uses. -/
def resolveStop (data : List NetexData) (r : Nat) : Option Nat :=
  (lookup (buildPointMap data) r).bind fun sp =>
    (lookup (dedupData data).ref_to_node_idx sp).map (·.node)

/-- Whether the ordered canonical pair (X, Y) occurs as an adjacent window of
some service journey. -/
def pairOccurs (data : List NetexData) (X Y : Nat) : Bool :=
  (allJourneys data).any fun j =>
    (windows2 j.passing_times).any fun w =>
      decide (resolveStop data w.1.stop_point_in_journey_pattern = some X) &&
        decide (resolveStop data w.2.stop_point_in_journey_pattern = some Y)

/-- The number of edges of `g` keyed (X, Y). -/
def countEdges (g : Graph) (X Y : Nat) : Nat :=
  (g.edges.filter fun e =>
    decide (e.start_node = X) && decide (e.end_node = Y)).length

/-- The total number of journey records across all edges of `g`. -/
def totalJourneys (g : Graph) : Nat :=
  (g.edges.map (·.timetable.journeys.length)).sum

/-- The total number of adjacent-stop windows over journeys with at least two
passing times. -/
def totalWindows (data : List NetexData) : Nat :=
  (((allJourneys data).filter fun j => decide (2 ≤ j.passing_times.length)).map
    fun j => j.passing_times.length - 1).sum

/-- The total number of journey records held by an edge accumulator. -/
def emJourneyCount (em : EdgeMap) : Nat := (em.map (·.2.length)).sum

/-- Whether an edge accumulator already holds the key `k`. -/
def hasKey (em : EdgeMap) (k : Nat × Nat) : Bool := (lookup em k).isSome

/-- The `node_map`/`counter` component of one deduplication step, with the
counter replaced by the map's size (they coincide throughout the loop). -/
def nmStep (m : List (String × Indices)) (t : Nat × Nat × ScheduledStopPoint) :
    List (String × Indices) :=
  insertFWW m t.2.2.short_name ⟨m.length, t.1, t.2.1⟩

/-- Every operating period's raw bitmap consists of bytes (the Rust type is
`Vec of u8`, which the `Nat` model does not enforce by itself). -/
abbrev wfPeriodBytes (data : List NetexData) : Prop :=
  ∀ d ∈ data, ∀ p ∈ d.operating_periods, ∀ b ∈ p.valid_day_bits, b < 256

/-! Concrete sample inputs used to witness the theorems below. -/

/-- A well-formed two-stop sample: stops 101 "A" and 102 "B" plus a duplicate
short name "A" under id 103, one pattern, one line, one authority, one
operating period and one two-stop journey. -/
def W : List NetexData :=
  [⟨[⟨101, "A", 1, 2⟩, ⟨102, "B", 3, 4⟩, ⟨103, "A", 5, 6⟩],
    [⟨201, 301, [⟨401, 101⟩, ⟨402, 102⟩]⟩],
    [⟨301, "L1", 501⟩],
    [⟨501, "AUTH"⟩],
    [⟨601, 220101, 220131, [127, 3]⟩],
    [⟨601, 701, true⟩],
    [⟨[⟨401, 10, 12⟩, ⟨402, 30, 32⟩], 701, 201, "bus"⟩]⟩]

/-- The graph the pipeline compiles `W` to. -/
def GW : Graph :=
  ⟨[⟨"A", 1, 2⟩, ⟨"B", 3, 4⟩],
    [⟨0, 1, ⟨[⟨12, 30, "bus", 0, "L1", "AUTH"⟩],
      [⟨220101, 220131, [102, 119, 77, 61], [127, 3]⟩]⟩⟩]⟩

/-- Like `W`, but with no day-type assignment for the journey's day type. -/
def W7 : List NetexData :=
  [⟨[⟨101, "A", 1, 2⟩, ⟨102, "B", 3, 4⟩],
    [⟨201, 301, [⟨401, 101⟩, ⟨402, 102⟩]⟩],
    [⟨301, "L1", 501⟩],
    [⟨501, "AUTH"⟩],
    [⟨601, 220101, 220131, [127, 3]⟩],
    [],
    [⟨[⟨401, 10, 12⟩, ⟨402, 30, 32⟩], 701, 201, "bus"⟩]⟩]

/-! Association-list map lemmas. -/

theorem lookup_nil {α β : Type} [DecidableEq α] (k : α) :
    lookup ([] : List (α × β)) k = none := rfl

theorem lookup_cons {α β : Type} [DecidableEq α] (p : α × β) (m : List (α × β))
    (k : α) : lookup (p :: m) k = if p.1 = k then some p.2 else lookup m k := by
  by_cases h : p.1 = k
  · rw [if_pos h]
    unfold lookup
    rw [List.find?_cons_of_pos _ (by simpa using h)]
    rfl
  · rw [if_neg h]
    unfold lookup
    rw [List.find?_cons_of_neg _ (by simpa using h)]

theorem lookup_append {α β : Type} [DecidableEq α] (m1 m2 : List (α × β))
    (k : α) : lookup (m1 ++ m2) k = (lookup m1 k).or (lookup m2 k) := by
  unfold lookup
  rw [List.find?_append]
  cases List.find? (fun p => decide (p.1 = k)) m1 <;> simp

theorem lookup_mem {α β : Type} [DecidableEq α] {m : List (α × β)} {k : α}
    {v : β} (h : lookup m k = some v) : (k, v) ∈ m := by
  unfold lookup at h
  obtain ⟨p, hp, hv⟩ := Option.map_eq_some'.mp h
  have hk : p.1 = k := by simpa using List.find?_some hp
  have : p = (k, v) := Prod.ext hk hv
  exact this ▸ List.mem_of_find?_eq_some hp

theorem foldl_insertLWW {γ α β : Type} (key : γ → α) (val : γ → β)
    (l : List γ) (m0 : List (α × β)) :
    l.foldl (fun m a => insertLWW m (key a) (val a)) m0 =
      (l.map fun a => (key a, val a)).reverse ++ m0 := by
  induction l generalizing m0 with
  | nil => rfl
  | cons a rest ih =>
      rw [List.foldl_cons, ih, List.map_cons, List.reverse_cons, List.append_assoc]
      rfl

theorem lookup_foldl_insertFWW {γ α β : Type} [DecidableEq α] (key : γ → α)
    (val : γ → β) (l : List γ) (m0 : List (α × β)) (k : α) :
    lookup (l.foldl (fun m a => insertFWW m (key a) (val a)) m0) k =
      (lookup m0 k).or (lookup (l.map fun a => (key a, val a)) k) := by
  induction l generalizing m0 with
  | nil => cases h : lookup m0 k <;> simp [lookup_nil, h]
  | cons a rest ih =>
      rw [List.foldl_cons, ih, List.map_cons, lookup_cons]
      unfold insertFWW
      by_cases hpk : key a = k
      · rw [if_pos hpk]
        cases hm : lookup m0 (key a) with
        | some v =>
            have h0 : lookup m0 k = some v := hpk ▸ hm
            simp [h0]
        | none =>
            have h0 : lookup m0 k = none := hpk ▸ hm
            rw [h0, lookup_cons, if_pos hpk]
            simp
      · rw [if_neg hpk]
        cases hm : lookup m0 (key a) with
        | some v => rfl
        | none => rw [lookup_cons, if_neg hpk]

theorem lookup_buildLines (data : List NetexData) (k : Nat) :
    lookup (buildLines data) k = lastWins (linePairs data) k := by
  have h := foldl_insertLWW (fun l : Line => l.id) (fun l => l)
    (data.flatMap (·.lines)) []
  show lookup ((data.flatMap (·.lines)).foldl
    (fun m a => insertLWW m ((fun l : Line => l.id) a) ((fun l : Line => l) a)) []) k
    = _
  rw [h, List.append_nil]
  rfl

theorem lookup_buildAuthorities (data : List NetexData) (k : Nat) :
    lookup (buildAuthorities data) k = lastWins (authorityPairs data) k := by
  have h := foldl_insertLWW (fun a : Authority => a.id) (fun a => a)
    (data.flatMap (·.authorities)) []
  show lookup ((data.flatMap (·.authorities)).foldl
    (fun m a => insertLWW m ((fun x : Authority => x.id) a)
      ((fun x : Authority => x) a)) []) k = _
  rw [h, List.append_nil]
  rfl

theorem lookup_buildPatternRefToLine (data : List NetexData) (k : Nat) :
    lookup (buildPatternRefToLine data) k = lastWins (patternLinePairs data) k := by
  have h := foldl_insertLWW (fun p : ServiceJourneyPattern => p.id)
    (fun p => p.line) (data.flatMap (·.service_journey_patterns)) []
  show lookup ((data.flatMap (·.service_journey_patterns)).foldl
    (fun m a => insertLWW m ((fun p : ServiceJourneyPattern => p.id) a)
      ((fun p : ServiceJourneyPattern => p.line) a)) []) k = _
  rw [h, List.append_nil]
  rfl

theorem lookup_buildDayTypeAssignments (data : List NetexData) (k : Nat) :
    lookup (buildDayTypeAssignments data) k = lastWins (dayTypePairs data) k := by
  have h := foldl_insertLWW (fun dta : DayTypeAssignment => dta.day_type)
    (fun dta => dta) (data.flatMap (·.day_type_assignments)) []
  show lookup ((data.flatMap (·.day_type_assignments)).foldl
    (fun m a => insertLWW m ((fun dta : DayTypeAssignment => dta.day_type) a)
      ((fun dta : DayTypeAssignment => dta) a)) []) k = _
  rw [h, List.append_nil]
  rfl

theorem lookup_buildPeriodMap (data : List NetexData) (k : Nat) :
    lookup (buildPeriodMap data) k = lastWins (periodPairs data) k := by
  have h := foldl_insertLWW (fun ip : Nat × UicOperatingPeriod => ip.2.id)
    (fun ip => ip.1) (allPeriods data).enum []
  show lookup ((allPeriods data).enum.foldl
    (fun m a => insertLWW m ((fun ip : Nat × UicOperatingPeriod => ip.2.id) a)
      ((fun ip : Nat × UicOperatingPeriod => ip.1) a)) []) k = _
  rw [h, List.append_nil]
  rfl

theorem lookup_buildPointMap (data : List NetexData) (k : Nat) :
    lookup (buildPointMap data) k = lookup (pointPairs data) k := by
  have h := lookup_foldl_insertFWW (fun s : StopPointInJourneyPattern => s.id)
    (fun s => s.scheduled_stop_point)
    (data.flatMap fun d => d.service_journey_patterns.flatMap (·.stops)) [] k
  show lookup ((data.flatMap fun d =>
      d.service_journey_patterns.flatMap (·.stops)).foldl
    (fun m a => insertFWW m ((fun s : StopPointInJourneyPattern => s.id) a)
      ((fun s : StopPointInJourneyPattern => s.scheduled_stop_point) a)) []) k = _
  rw [h]
  rfl

/-- C9: when the same dataset-local identifier occurs more than once, the
line, authority, pattern-to-line, and day-type-assignment tables retain the
entry written last in dataset order (last write wins), whereas the
pattern-point-to-scheduled-stop-point mapping retains the entry written
first (first write wins). -/
theorem claim_C9 (data : List NetexData) :
    (∀ k, lookup (buildLines data) k = lastWins (linePairs data) k) ∧
    (∀ k, lookup (buildAuthorities data) k = lastWins (authorityPairs data) k) ∧
    (∀ k, lookup (buildPatternRefToLine data) k = lastWins (patternLinePairs data) k) ∧
    (∀ k, lookup (buildDayTypeAssignments data) k = lastWins (dayTypePairs data) k) ∧
    (∀ k, lookup (buildPointMap data) k = lookup (pointPairs data) k) :=
  ⟨lookup_buildLines data, lookup_buildAuthorities data,
    lookup_buildPatternRefToLine data, lookup_buildDayTypeAssignments data,
    lookup_buildPointMap data⟩

/-! Global period lookup (claim C5). -/

theorem lookup_op_eq_get? (data : List NetexData) (g : Nat) :
    lookup_operating_period data g = (allPeriods data).get? g := by
  induction data generalizing g with
  | nil => simp [lookup_operating_period, allPeriods]
  | cons d rest ih =>
      unfold lookup_operating_period allPeriods
      rw [List.flatMap_cons]
      by_cases h : g < d.operating_periods.length
      · rw [if_pos h, List.get?_append h]
      · rw [if_neg h, ih, List.get?_append_right (le_of_not_lt h)]
        rfl

/-- C5: `lookup_operating_period data g` returns the g-th operating period of
the concatenation of all datasets' period lists (dataset order then
in-dataset order) when in range and `none` otherwise, and this enumeration
agrees with the order in which global indices were assigned in `period_map`. -/
theorem claim_C5 (data : List NetexData) :
    (∀ g, lookup_operating_period data g = (allPeriods data).get? g) ∧
    (∀ pid gidx, lookup (buildPeriodMap data) pid = some gidx →
      ∃ p, lookup_operating_period data gidx = some p ∧ p.id = pid) := by
  refine ⟨lookup_op_eq_get? data, fun pid gidx h => ?_⟩
  rw [lookup_buildPeriodMap] at h
  unfold lastWins at h
  have hmem : (pid, gidx) ∈ (periodPairs data).reverse := lookup_mem h
  rw [List.mem_reverse] at hmem
  unfold periodPairs at hmem
  obtain ⟨ip, hip, heq⟩ := List.mem_map.mp hmem
  obtain ⟨i, p⟩ := ip
  obtain ⟨hlt, hp⟩ := List.mem_enum hip
  have hid : p.id = pid := congrArg Prod.fst heq
  have hgi : i = gidx := congrArg Prod.snd heq
  refine ⟨p, ?_, hid⟩
  rw [lookup_op_eq_get?, ← hgi, List.get?_eq_getElem?, List.getElem?_eq_getElem hlt,
    hp]

/-- C5 witnessed on `W`: global index 0 is `W`'s only operating period, and
the `period_map` entry for period id 601 resolves back to that period. -/
theorem claim_C5_witness :
    lookup_operating_period W 0 = (allPeriods W).get? 0 ∧
    lookup (buildPeriodMap W) 601 = some 0 ∧
    (∃ p, lookup_operating_period W 0 = some p ∧ p.id = 601) :=
  ⟨(claim_C5 W).1 0, by rfl, (claim_C5 W).2 601 0 (by rfl)⟩

/-! Minute-of-day parsing (claim C10). -/

/-- C10 counterexample: the parser performs no range validation, so the
malformed time string "99:99" parses to minute-of-day 6039, outside
[0, 1439]; a passing time carrying it would land in the graph unchanged. -/
theorem claim_C10_counterexample :
    parse_minutes [57, 57, 58, 57, 57] = 6039 ∧
      ¬ parse_minutes [57, 57, 58, 57, 57] ≤ 1439 := by decide

/-- C10 amended: for every time string whose hour and minute positions are
ASCII digits encoding a valid 24-hour time (hours at most 23, minutes at
most 59), the parsed minute-of-day lies in [0, 1439]. -/
theorem claim_C10_amended (bytes : List Nat)
    (h0 : 48 ≤ bytes.getD 0 0 ∧ bytes.getD 0 0 ≤ 57)
    (h1 : 48 ≤ bytes.getD 1 0 ∧ bytes.getD 1 0 ≤ 57)
    (h3 : 48 ≤ bytes.getD 3 0 ∧ bytes.getD 3 0 ≤ 57)
    (h4 : 48 ≤ bytes.getD 4 0 ∧ bytes.getD 4 0 ≤ 57)
    (hh : (bytes.getD 0 0 - 48) * 10 + (bytes.getD 1 0 - 48) ≤ 23)
    (hm : (bytes.getD 3 0 - 48) * 10 + (bytes.getD 4 0 - 48) ≤ 59) :
    parse_minutes bytes ≤ 1439 := by
  unfold parse_minutes
  have e0 : (bytes.getD 0 0 % 65536 + 65536 - 48) % 65536 = bytes.getD 0 0 - 48 := by
    omega
  have e1 : (bytes.getD 1 0 % 65536 + 65536 - 48) % 65536 = bytes.getD 1 0 - 48 := by
    omega
  have e3 : (bytes.getD 3 0 % 65536 + 65536 - 48) % 65536 = bytes.getD 3 0 - 48 := by
    omega
  have e4 : (bytes.getD 4 0 % 65536 + 65536 - 48) % 65536 = bytes.getD 4 0 - 48 := by
    omega
  rw [e0, e1, e3, e4]
  have m0 : (bytes.getD 0 0 - 48) * 600 % 65536 = (bytes.getD 0 0 - 48) * 600 :=
    Nat.mod_eq_of_lt (by omega)
  have m1 : (bytes.getD 1 0 - 48) * 60 % 65536 = (bytes.getD 1 0 - 48) * 60 :=
    Nat.mod_eq_of_lt (by omega)
  have m3 : (bytes.getD 3 0 - 48) * 10 % 65536 = (bytes.getD 3 0 - 48) * 10 :=
    Nat.mod_eq_of_lt (by omega)
  rw [m0, m1, m3]
  have s1 : ((bytes.getD 0 0 - 48) * 600 + (bytes.getD 1 0 - 48) * 60) % 65536 =
      (bytes.getD 0 0 - 48) * 600 + (bytes.getD 1 0 - 48) * 60 :=
    Nat.mod_eq_of_lt (by omega)
  rw [s1]
  have s2 : ((bytes.getD 0 0 - 48) * 600 + (bytes.getD 1 0 - 48) * 60 +
        (bytes.getD 3 0 - 48) * 10) % 65536 =
      (bytes.getD 0 0 - 48) * 600 + (bytes.getD 1 0 - 48) * 60 +
        (bytes.getD 3 0 - 48) * 10 :=
    Nat.mod_eq_of_lt (by omega)
  rw [s2]
  have s3 : ((bytes.getD 0 0 - 48) * 600 + (bytes.getD 1 0 - 48) * 60 +
        (bytes.getD 3 0 - 48) * 10 + (bytes.getD 4 0 - 48)) % 65536 =
      (bytes.getD 0 0 - 48) * 600 + (bytes.getD 1 0 - 48) * 60 +
        (bytes.getD 3 0 - 48) * 10 + (bytes.getD 4 0 - 48) :=
    Nat.mod_eq_of_lt (by omega)
  rw [s3]
  omega

/-- C10 amended, witnessed at the in-source test vector "12:34". -/
theorem claim_C10_witness :
    parse_minutes [49, 50, 58, 51, 52] = 754 ∧
      parse_minutes [49, 50, 58, 51, 52] ≤ 1439 :=
  ⟨by decide,
    claim_C10_amended [49, 50, 58, 51, 52] (by decide) (by decide) (by decide)
      (by decide) (by decide) (by decide)⟩

/-! First-seen deduplication lemmas. -/

theorem any_map_comp {γ δ : Type} (g : γ → δ) (p : δ → Bool) :
    ∀ l : List γ, (l.map g).any p = l.any fun a => p (g a) := by
  intro l
  induction l with
  | nil => rfl
  | cons a rest ih => simp [ih]

theorem dedupFirstBy_append {γ β : Type} [DecidableEq β] (f : γ → β)
    (l : List γ) (a : γ) :
    dedupFirstBy f (l ++ [a]) =
      if (dedupFirstBy f l).any (fun b => decide (f b = f a)) then dedupFirstBy f l
      else dedupFirstBy f l ++ [a] := by
  unfold dedupFirstBy
  rw [List.foldl_append]
  rfl

theorem dedupFirstBy_any {γ β : Type} [DecidableEq β] (f : γ → β) (l : List γ) :
    ∀ c : β, (dedupFirstBy f l).any (fun b => decide (f b = c)) =
      l.any fun b => decide (f b = c) := by
  induction l using List.reverseRecOn with
  | nil => intro c; rfl
  | append_singleton l a ih =>
      intro c
      rw [dedupFirstBy_append, List.any_append]
      by_cases h : (dedupFirstBy f l).any (fun b => decide (f b = f a)) = true
      · rw [if_pos h, ih c]
        by_cases hc : f a = c
        · have hl : l.any (fun b => decide (f b = f a)) = true := (ih (f a)) ▸ h
          subst hc
          simp [hl]
        · simp [hc]
      · rw [if_neg h, List.any_append, ih c]

theorem dedupFirstBy_nodup {γ β : Type} [DecidableEq β] (f : γ → β)
    (l : List γ) : ((dedupFirstBy f l).map f).Nodup := by
  induction l using List.reverseRecOn with
  | nil => exact List.nodup_nil
  | append_singleton l a ih =>
      rw [dedupFirstBy_append]
      by_cases h : (dedupFirstBy f l).any (fun b => decide (f b = f a)) = true
      · rw [if_pos h]; exact ih
      · rw [if_neg h, List.map_append]
        rw [List.nodup_append]
        refine ⟨ih, List.nodup_singleton _, ?_⟩
        intro x hx hx1
        have hxa : x = f a := by simpa using hx1
        subst hxa
        obtain ⟨b, hb, hfb⟩ := List.mem_map.mp hx
        have : (dedupFirstBy f l).any (fun b => decide (f b = f a)) = true :=
          List.any_eq_true.mpr ⟨b, hb, by simp [hfb]⟩
        exact h this

theorem dedupFirstBy_find? {γ β : Type} [DecidableEq β] (f : γ → β)
    (l : List γ) : ∀ a ∈ dedupFirstBy f l,
      l.find? (fun b => decide (f b = f a)) = some a := by
  induction l using List.reverseRecOn with
  | nil => intro a ha; cases ha
  | append_singleton l x ih =>
      intro a ha
      rw [dedupFirstBy_append] at ha
      rw [List.find?_append]
      by_cases h : (dedupFirstBy f l).any (fun b => decide (f b = f x)) = true
      · rw [if_pos h] at ha
        rw [ih a ha]
        rfl
      · rw [if_neg h] at ha
        rcases List.mem_append.mp ha with ha | ha
        · rw [ih a ha]
          rfl
        · have hax : a = x := by simpa using ha
          subst hax
          have hnone : l.find? (fun b => decide (f b = f a)) = none := by
            rw [List.find?_eq_none]
            intro b hb hba
            have hany : l.any (fun b => decide (f b = f a)) = true :=
              List.any_eq_true.mpr ⟨b, hb, hba⟩
            rw [← dedupFirstBy_any f l (f a)] at hany
            exact h hany
          rw [hnone]
          simp [List.find?]

theorem dedupFirstBy_map {γ δ β : Type} [DecidableEq β] (f : δ → β) (g : γ → δ)
    (l : List γ) :
    dedupFirstBy f (l.map g) = (dedupFirstBy (fun x => f (g x)) l).map g := by
  induction l using List.reverseRecOn with
  | nil => rfl
  | append_singleton l a ih =>
      rw [List.map_append, List.map_singleton, dedupFirstBy_append,
        dedupFirstBy_append, ih, any_map_comp]
      by_cases h : (dedupFirstBy (fun x => f (g x)) l).any
          (fun x => decide (f (g x) = f (g a))) = true
      · rw [if_pos h, if_pos h]
      · rw [if_neg h, if_neg h, List.map_append, List.map_singleton]

theorem dedupFirstBy_congr {γ β δ : Type} [DecidableEq β] [DecidableEq δ]
    (f : γ → β) (g : γ → δ) (l : List γ)
    (h : ∀ a ∈ l, ∀ b ∈ l, (f a = f b ↔ g a = g b)) :
    dedupFirstBy f l = dedupFirstBy g l := by
  induction l using List.reverseRecOn with
  | nil => rfl
  | append_singleton l a ih =>
      have hsub : ∀ x ∈ l, ∀ y ∈ l, (f x = f y ↔ g x = g y) := fun x hx y hy =>
        h x (List.mem_append_left _ hx) y (List.mem_append_left _ hy)
      rw [dedupFirstBy_append, dedupFirstBy_append, ih hsub]
      have hcond : (dedupFirstBy g l).any (fun b => decide (f b = f a)) =
          (dedupFirstBy g l).any (fun b => decide (g b = g a)) := by
        cases hx : (dedupFirstBy g l).any (fun b => decide (g b = g a)) with
        | true =>
            obtain ⟨b, hb, hba⟩ := List.any_eq_true.mp hx
            have hbl : b ∈ l := by
              have := dedupFirstBy_find? g l b hb
              exact List.mem_of_find?_eq_some this
            refine List.any_eq_true.mpr ⟨b, hb, ?_⟩
            have := (h b (List.mem_append_left _ hbl) a
              (List.mem_append_right _ (by simp))).mpr (by simpa using hba)
            simpa using this
        | false =>
            rw [List.any_eq_false] at hx
            rw [List.any_eq_false]
            intro b hb hba
            have hbl : b ∈ l :=
              List.mem_of_find?_eq_some (dedupFirstBy_find? g l b hb)
            have := (h b (List.mem_append_left _ hbl) a
              (List.mem_append_right _ (by simp))).mp (by simpa using hba)
            exact hx b hb (by simpa using this)
      rw [hcond]

theorem mem_dedupFirstBy_id {γ : Type} [DecidableEq γ] (l : List γ) (a : γ)
    (ha : a ∈ l) : a ∈ dedupFirstBy id l := by
  have : l.any (fun b => decide (id b = a)) = true :=
    List.any_eq_true.mpr ⟨a, ha, by simp⟩
  rw [← dedupFirstBy_any id l a] at this
  obtain ⟨b, hb, hba⟩ := List.any_eq_true.mp this
  have : b = a := by simpa using hba
  exact this ▸ hb

/-! Characterization of the first-write-wins fold with a running counter. -/

theorem lookup_enum_map_none {γ α β : Type} [DecidableEq α] (key : γ → α)
    (pay : Nat → γ → β) (D : List γ) (k : α) :
    lookup ((D.enum.map fun ia => (key ia.2, pay ia.1 ia.2)).reverse) k = none ↔
      D.any (fun b => decide (key b = k)) = false := by
  unfold lookup
  rw [Option.map_eq_none', List.find?_eq_none]
  constructor
  · intro hnone
    rw [List.any_eq_false]
    intro x hx hxk
    obtain ⟨i, hget⟩ := List.mem_iff_get.mp hx
    have hlt : (i : Nat) < D.enum.length := by
      rw [List.enum_length]
      exact i.isLt
    have hmem0 := List.getElem_mem hlt
    rw [List.getElem_enum] at hmem0
    have h2 : D[(i : Nat)] = x := by simpa using hget
    rw [h2] at hmem0
    have hpmem : (key x, pay i x) ∈
        (D.enum.map fun ia => (key ia.2, pay ia.1 ia.2)).reverse := by
      rw [List.mem_reverse]
      exact List.mem_map.mpr ⟨((i : Nat), x), hmem0, rfl⟩
    have hcontra := hnone _ hpmem
    simp only [decide_eq_true_eq] at hcontra
    exact hcontra (by simpa using hxk)
  · intro hany p hp
    rw [List.mem_reverse] at hp
    obtain ⟨ia, hmem, hpx⟩ := List.mem_map.mp hp
    obtain ⟨i, x⟩ := ia
    obtain ⟨hi, hx⟩ := List.mem_enum hmem
    rw [List.any_eq_false] at hany
    have hxl : x ∈ D := hx ▸ List.getElem_mem hi
    have hnk := hany x hxl
    rw [← hpx]
    simpa using hnk

theorem fw_counter_char {γ α β : Type} [DecidableEq α] (key : γ → α)
    (pay : Nat → γ → β) (l : List γ) :
    l.foldl (fun m a => insertFWW m (key a) (pay m.length a)) [] =
      ((dedupFirstBy key l).enum.map fun ia => (key ia.2, pay ia.1 ia.2)).reverse := by
  induction l using List.reverseRecOn with
  | nil => rfl
  | append_singleton l a ih =>
      rw [List.foldl_append, ih, dedupFirstBy_append]
      by_cases h : (dedupFirstBy key l).any (fun b => decide (key b = key a)) = true
      · rw [if_pos h]
        show insertFWW _ (key a) _ = _
        unfold insertFWW
        cases hl : lookup (((dedupFirstBy key l).enum.map
            fun ia => (key ia.2, pay ia.1 ia.2)).reverse) (key a) with
        | some v => rfl
        | none =>
            rw [lookup_enum_map_none] at hl
            rw [hl] at h
            cases h
      · rw [if_neg h]
        show insertFWW _ (key a) _ = _
        unfold insertFWW
        have hnone : lookup (((dedupFirstBy key l).enum.map
            fun ia => (key ia.2, pay ia.1 ia.2)).reverse) (key a) = none :=
          (lookup_enum_map_none key pay _ (key a)).mpr (by simpa using h)
        rw [hnone]
        have hlen : (((dedupFirstBy key l).enum.map
            fun ia => (key ia.2, pay ia.1 ia.2)).reverse).length =
            (dedupFirstBy key l).length := by
          simp
        rw [hlen, List.enum_append, List.map_append, List.reverse_append]
        show _ = ((List.enumFrom (dedupFirstBy key l).length [a]).map
            fun ia => (key ia.2, pay ia.1 ia.2)).reverse ++ _
        rfl

/-- Lookup in a map whose keys are distinct finds any present binding. -/
theorem lookup_unique {α β : Type} [DecidableEq α] (m : List (α × β)) (k : α)
    (v : β) (hnd : (m.map (·.1)).Nodup) (hmem : (k, v) ∈ m) :
    lookup m k = some v := by
  induction m with
  | nil => cases hmem
  | cons p rest ih =>
      rw [List.map_cons, List.nodup_cons] at hnd
      rw [lookup_cons]
      rcases List.mem_cons.mp hmem with hp | hrest
      · rw [← hp]
        simp
      · have hk : p.1 ≠ k := by
          intro hk
          exact hnd.1 (hk ▸ List.mem_map.mpr ⟨(k, v), hrest, rfl⟩)
        rw [if_neg hk]
        exact ih hnd.2 hrest

/-! Characterization of the node-deduplication pass. -/

theorem dedup_proj : ∀ (ts : List (Nat × Nat × ScheduledStopPoint))
    (st0 : DedupState), st0.counter = st0.node_map.length →
    (ts.foldl dedupStep st0).node_map = ts.foldl nmStep st0.node_map ∧
    (ts.foldl dedupStep st0).counter = (ts.foldl nmStep st0.node_map).length := by
  intro ts
  induction ts with
  | nil => exact fun st0 h => ⟨rfl, h⟩
  | cons t rest ih =>
      intro st0 h
      rw [List.foldl_cons, List.foldl_cons]
      cases hl : lookup st0.node_map t.2.2.short_name with
      | some idx =>
          have e1 : dedupStep st0 t =
              { st0 with ref_to_node_idx :=
                  insertLWW st0.ref_to_node_idx t.2.2.id idx } := by
            unfold dedupStep
            rw [hl]
          have e2 : nmStep st0.node_map t = st0.node_map := by
            unfold nmStep insertFWW
            rw [hl]
          rw [e1, e2]
          exact ih _ h
      | none =>
          have e1 : dedupStep st0 t =
              ⟨insertLWW st0.node_map t.2.2.short_name ⟨st0.counter, t.1, t.2.1⟩,
                insertLWW st0.ref_to_node_idx t.2.2.id ⟨st0.counter, t.1, t.2.1⟩,
                st0.counter + 1⟩ := by
            unfold dedupStep
            rw [hl]
          have e2 : nmStep st0.node_map t =
              (t.2.2.short_name, (⟨st0.node_map.length, t.1, t.2.1⟩ : Indices))
                :: st0.node_map := by
            unfold nmStep insertFWW
            rw [hl]
          rw [e1, e2, h]
          exact ih ⟨_, _, _⟩ (by simp [insertLWW, h])

theorem dedupData_node_map (data : List NetexData) :
    (dedupData data).node_map =
      ((dedupFirstBy (fun t => t.2.2.short_name) (stopsWithIndices data)).enum.map
        fun ia => (ia.2.2.2.short_name,
          (⟨ia.1, ia.2.1, ia.2.2.1⟩ : Indices))).reverse ∧
    (dedupData data).counter =
      (dedupFirstBy (fun t => t.2.2.short_name) (stopsWithIndices data)).length := by
  obtain ⟨h1, h2⟩ := dedup_proj (stopsWithIndices data) ⟨[], [], 0⟩ rfl
  have hc := fw_counter_char (fun t : Nat × Nat × ScheduledStopPoint =>
    t.2.2.short_name) (fun n t => (⟨n, t.1, t.2.1⟩ : Indices))
    (stopsWithIndices data)
  constructor
  · rw [show (dedupData data).node_map =
        (stopsWithIndices data).foldl nmStep [] from h1]
    exact hc
  · rw [show (dedupData data).counter =
        ((stopsWithIndices data).foldl nmStep []).length from h2]
    rw [show (stopsWithIndices data).foldl nmStep [] = _ from hc]
    simp

theorem dedup_idx_lt : ∀ (ts : List (Nat × Nat × ScheduledStopPoint))
    (st0 : DedupState),
    (∀ p ∈ st0.node_map, p.2.node < st0.counter) →
    (∀ p ∈ st0.ref_to_node_idx, p.2.node < st0.counter) →
    (∀ p ∈ (ts.foldl dedupStep st0).node_map,
        p.2.node < (ts.foldl dedupStep st0).counter) ∧
    (∀ p ∈ (ts.foldl dedupStep st0).ref_to_node_idx,
        p.2.node < (ts.foldl dedupStep st0).counter) := by
  intro ts
  induction ts with
  | nil => exact fun st0 h1 h2 => ⟨h1, h2⟩
  | cons t rest ih =>
      intro st0 h1 h2
      rw [List.foldl_cons]
      cases hl : lookup st0.node_map t.2.2.short_name with
      | some idx =>
          have e1 : dedupStep st0 t =
              { st0 with ref_to_node_idx :=
                  insertLWW st0.ref_to_node_idx t.2.2.id idx } := by
            unfold dedupStep
            rw [hl]
          rw [e1]
          refine ih _ h1 ?_
          intro p hp
          rcases List.mem_cons.mp hp with hp | hp
          · have : (t.2.2.short_name, idx) ∈ st0.node_map := lookup_mem hl
            have := h1 _ this
            rw [hp]
            exact this
          · exact h2 _ hp
      | none =>
          have e1 : dedupStep st0 t =
              ⟨insertLWW st0.node_map t.2.2.short_name ⟨st0.counter, t.1, t.2.1⟩,
                insertLWW st0.ref_to_node_idx t.2.2.id ⟨st0.counter, t.1, t.2.1⟩,
                st0.counter + 1⟩ := by
            unfold dedupStep
            rw [hl]
          rw [e1]
          refine ih _ ?_ ?_
          · intro p hp
            rcases List.mem_cons.mp hp with hp | hp
            · rw [hp]
              exact Nat.lt_succ_self _
            · exact Nat.lt_succ_of_lt (h1 _ hp)
          · intro p hp
            rcases List.mem_cons.mp hp with hp | hp
            · rw [hp]
              exact Nat.lt_succ_self _
            · exact Nat.lt_succ_of_lt (h2 _ hp)

theorem ref_to_node_idx_lt (data : List NetexData) (k : Nat) (idx : Indices)
    (h : lookup (dedupData data).ref_to_node_idx k = some idx) :
    idx.node < (dedupData data).counter :=
  (dedup_idx_lt (stopsWithIndices data) ⟨[], [], 0⟩ (by simp) (by simp)).2
    (k, idx) (lookup_mem h)

theorem buildNodes_length (data : List NetexData) (st : DedupState) :
    (buildNodes data st).length = st.counter := by
  simp [buildNodes]

theorem stopAt_stopsWithIndices (data : List NetexData) :
    ∀ t ∈ stopsWithIndices data, ∀ n : Nat,
      stopAt data ⟨n, t.1, t.2.1⟩ = some t.2.2 := by
  intro t ht n
  unfold stopsWithIndices at ht
  obtain ⟨d, hd, ht2⟩ := List.mem_flatMap.mp ht
  obtain ⟨s, hs, hts⟩ := List.mem_map.mp ht2
  obtain ⟨di, dd⟩ := d
  obtain ⟨si, ss⟩ := s
  obtain ⟨hdi, hdd⟩ := List.mem_enum hd
  obtain ⟨hsi, hss⟩ := List.mem_enum hs
  have hd2 : data.get? di = some dd := by
    rw [List.get?_eq_getElem?, List.getElem?_eq_getElem hdi, hdd]
  have hs2 : dd.scheduled_stop_points.get? si = some ss := by
    rw [List.get?_eq_getElem?, List.getElem?_eq_getElem hsi, hss]
  rw [← hts]
  unfold stopAt
  dsimp only
  rw [hd2, Option.some_bind, hs2]

theorem stops_map_snd (data : List NetexData) :
    (stopsWithIndices data).map (fun t => t.2.2) = allStops data := by
  unfold stopsWithIndices allStops
  rw [List.map_flatMap]
  have h1 : ∀ d : Nat × NetexData,
      ((d.2.scheduled_stop_points.enum.map fun s => (d.1, s.1, s.2)).map
        fun t => t.2.2) = d.2.scheduled_stop_points := by
    intro d
    rw [List.map_map]
    exact List.enum_map_snd _
  rw [show (fun d : Nat × NetexData =>
      ((d.2.scheduled_stop_points.enum.map fun s => (d.1, s.1, s.2)).map
        fun t => t.2.2)) = fun d => d.2.scheduled_stop_points from funext h1]
  rw [show data.flatMap (fun x => x.scheduled_stop_points) =
      (data.enum.map Prod.snd).flatMap (fun x => x.scheduled_stop_points) by
    rw [List.enum_map_snd]]
  rw [List.flatMap_map]

theorem find?_eq_of_unique {α : Type} (p : α → Bool) (l : List α) (a : α)
    (ha : a ∈ l) (hpa : p a = true) (huniq : ∀ b ∈ l, p b = true → b = a) :
    l.find? p = some a := by
  induction l with
  | nil => cases ha
  | cons x rest ih =>
      by_cases hx : p x = true
      · rw [List.find?_cons_of_pos _ hx]
        rw [huniq x (List.mem_cons_self _ _) hx]
      · rw [List.find?_cons_of_neg _ hx]
        rcases List.mem_cons.mp ha with hax | har
        · rw [hax] at hpa
          exact absurd hpa hx
        · exact ih har fun b hb hpb => huniq b (List.mem_cons_of_mem _ hb) hpb

theorem find_enum_map_by_idx {γ α β : Type} (key : γ → α) (pay : Nat → γ → β)
    (idxOf : β → Nat) (hidx : ∀ n a, idxOf (pay n a) = n) (D : List γ)
    (j : Nat) (hj : j < D.length) :
    ((D.enum.map fun ia => (key ia.2, pay ia.1 ia.2)).reverse).find?
      (fun p => decide (idxOf p.2 = j)) = some (key D[j], pay j D[j]) := by
  apply find?_eq_of_unique
  · rw [List.mem_reverse]
    refine List.mem_map.mpr ⟨(j, D[j]), ?_, rfl⟩
    have hlt : j < D.enum.length := by
      rw [List.enum_length]
      exact hj
    have := List.getElem_mem hlt
    rw [List.getElem_enum] at this
    exact this
  · simp [hidx]
  · intro b hb hpb
    rw [List.mem_reverse] at hb
    obtain ⟨ia, hmem, hpx⟩ := List.mem_map.mp hb
    obtain ⟨i, x⟩ := ia
    obtain ⟨hi, hx⟩ := List.mem_enum hmem
    have hbi : idxOf b.2 = i := by
      rw [← hpx]
      exact hidx i x
    have hij : i = j := by
      have := of_decide_eq_true hpb
      rw [hbi] at this
      exact this
    subst hij
    rw [← hpx, hx]

/-! Inversion of the pipeline stages. -/

theorem from_data_inv (data : List NetexData) (g : Graph)
    (h : from_data data = some g) :
    ∃ em, buildEdgeMap data (mkResolver data (dedupData data)) = some em ∧
      ∃ edges, em.mapM (fun ke => compactEdge data ke.1 ke.2) = some edges ∧
        g = ⟨buildNodes data (dedupData data), edges⟩ := by
  unfold from_data at h
  obtain ⟨em, hem, h2⟩ := Option.bind_eq_some.mp h
  obtain ⟨edges, hedges, h3⟩ := Option.map_eq_some'.mp h2
  exact ⟨em, hem, edges, hedges, h3.symm⟩

theorem buildNodes_eq (data : List NetexData) :
    buildNodes data (dedupData data) =
      (dedupFirstBy (fun s => s.short_name) (allStops data)).map
        fun s => Node.mk s.short_name s.long s.lat := by
  obtain ⟨hnm, hcnt⟩ := dedupData_node_map data
  have hrhs : dedupFirstBy (fun s => s.short_name) (allStops data) =
      (dedupFirstBy (fun t => t.2.2.short_name) (stopsWithIndices data)).map
        fun t => t.2.2 := by
    rw [← stops_map_snd data, dedupFirstBy_map]
  rw [hrhs, List.map_map]
  unfold buildNodes
  rw [hnm, hcnt]
  apply List.ext_get
  · simp
  · intro n h1 h2
    have hn : n < (dedupFirstBy (fun t => t.2.2.short_name)
        (stopsWithIndices data)).length := by
      simpa using h2
    rw [List.get_eq_getElem, List.get_eq_getElem, List.getElem_map,
      List.getElem_map, List.getElem_range]
    have hfind := find_enum_map_by_idx
      (fun t : Nat × Nat × ScheduledStopPoint => t.2.2.short_name)
      (fun n t => (⟨n, t.1, t.2.1⟩ : Indices)) (fun idx => idx.node)
      (fun _ _ => rfl) (dedupFirstBy (fun t => t.2.2.short_name)
        (stopsWithIndices data)) n hn
    rw [hfind]
    have hmem : (dedupFirstBy (fun t => t.2.2.short_name)
        (stopsWithIndices data))[n] ∈ stopsWithIndices data := by
      have hd : (dedupFirstBy (fun t => t.2.2.short_name)
          (stopsWithIndices data))[n] ∈ dedupFirstBy
            (fun t => t.2.2.short_name) (stopsWithIndices data) :=
        List.getElem_mem hn
      exact List.mem_of_find?_eq_some (dedupFirstBy_find? _ _ _ hd)
    have hstop := stopAt_stopsWithIndices data _ hmem n
    dsimp only
    rw [hstop]
    rfl

/-- C1: all stop points with equal short name resolve to exactly one node;
that node's coordinates are those of the first stop point (in dataset order
then in-dataset order) that introduced the short name; canonical node
indices are dense 0-based indices in first-seen order of short names, so
the node list is exactly the first-seen-deduplicated stop list. -/
theorem claim_C1 (data : List NetexData) (g : Graph)
    (h : from_data data = some g) :
    g.nodes = ((dedupFirstBy (fun s => s.short_name) (allStops data)).map
      fun s => Node.mk s.short_name s.long s.lat) ∧
    (g.nodes.map (·.short_name)).Nodup ∧
    ∀ nd ∈ g.nodes, ∃ s, (allStops data).find?
      (fun t => decide (t.short_name = nd.short_name)) = some s ∧
      nd = Node.mk s.short_name s.long s.lat := by
  obtain ⟨em, hem, edges, hedges, hg⟩ := from_data_inv data g h
  have hnodes : g.nodes = buildNodes data (dedupData data) := by rw [hg]
  rw [hnodes, buildNodes_eq]
  refine ⟨rfl, ?_, ?_⟩
  · rw [List.map_map]
    have he : ((fun n : Node => n.short_name) ∘
        fun s : ScheduledStopPoint => Node.mk s.short_name s.long s.lat) =
        fun s : ScheduledStopPoint => s.short_name := funext fun s => rfl
    rw [he]
    exact dedupFirstBy_nodup _ _
  · intro nd hnd
    obtain ⟨s, hs, hnds⟩ := List.mem_map.mp hnd
    refine ⟨s, ?_, hnds.symm⟩
    have := dedupFirstBy_find? (fun s : ScheduledStopPoint => s.short_name)
      (allStops data) s hs
    rw [← hnds]
    exact this

/-- C1 witnessed on the sample `W`: the duplicate "A" stop collapses onto
the first-seen coordinates. -/
theorem claim_C1_witness :
    from_data W = some GW ∧
      (GW.nodes = ((dedupFirstBy (fun s => s.short_name) (allStops W)).map
        fun s => Node.mk s.short_name s.long s.lat) ∧
      (GW.nodes.map (·.short_name)).Nodup ∧
      ∀ nd ∈ GW.nodes, ∃ s, (allStops W).find?
        (fun t => decide (t.short_name = nd.short_name)) = some s ∧
        nd = Node.mk s.short_name s.long s.lat) :=
  ⟨by rfl, claim_C1 W GW (by rfl)⟩

/-! The fatal path: a journey whose day type has no assignment (claim C7). -/

theorem foldlM_none_of_mem {σ α : Type} (f : σ → α → Option σ) (a : α)
    (hfa : ∀ s, f s a = none) :
    ∀ l : List α, a ∈ l → ∀ s0 : σ, l.foldlM f s0 = none := by
  intro l
  induction l with
  | nil => intro h; cases h
  | cons b rest ih =>
      intro hmem s0
      rw [List.foldlM_cons]
      rcases List.mem_cons.mp hmem with hab | har
      · rw [← hab, hfa s0]
        rfl
      · cases hfb : f s0 b with
        | none => rfl
        | some s1 =>
            show (Option.some s1).bind (fun init => rest.foldlM f init) = none
            rw [Option.some_bind]
            exact ih har s1

theorem processWindow_day_type_none (r : Resolver) (j : ServiceJourney)
    (em : EdgeMap) (w : TimetabledPassingTime × TimetabledPassingTime)
    (hd : lookup r.day_type_assignments j.day_type = none) :
    processWindow r j em w = none := by
  unfold processWindow
  cases h1 : lookup r.point_map w.1.stop_point_in_journey_pattern with
  | none => rfl
  | some preRef =>
      dsimp only
      cases h2 : lookup r.ref_to_node_idx preRef with
      | none => rfl
      | some si =>
          dsimp only
          cases h3 : lookup r.point_map w.2.stop_point_in_journey_pattern with
          | none => rfl
          | some curRef =>
              dsimp only
              cases h4 : lookup r.ref_to_node_idx curRef with
              | none => rfl
              | some ei =>
                  dsimp only
                  rw [hd]

theorem processJourney_none (r : Resolver) (j : ServiceJourney)
    (hlen : 2 ≤ j.passing_times.length)
    (hd : lookup r.day_type_assignments j.day_type = none) :
    ∀ em : EdgeMap, processJourney r em j = none := by
  intro em
  unfold processJourney
  obtain ⟨a, b, rest, hw⟩ : ∃ a b rest, j.passing_times = a :: b :: rest := by
    cases hp : j.passing_times with
    | nil => rw [hp] at hlen; simp at hlen
    | cons a tail =>
        cases ht : tail with
        | nil => rw [hp, ht] at hlen; simp at hlen
        | cons b rest => exact ⟨a, b, rest, rfl⟩
  rw [hw]
  show ((a, b) :: windows2 (b :: rest)).foldlM (processWindow r j) em = none
  rw [List.foldlM_cons, processWindow_day_type_none r j em (a, b) hd]
  rfl

/-- C7: a service journey with at least one adjacent-stop window whose day
type has no registered operating-period assignment aborts the whole
compilation; no (partial) graph is produced. -/
theorem claim_C7 (data : List NetexData) (j : ServiceJourney)
    (hj : j ∈ allJourneys data) (hlen : 2 ≤ j.passing_times.length)
    (hd : lookup (buildDayTypeAssignments data) j.day_type = none) :
    from_data data = none := by
  unfold from_data
  have hem : buildEdgeMap data (mkResolver data (dedupData data)) = none := by
    unfold buildEdgeMap
    exact foldlM_none_of_mem _ j (processJourney_none _ j hlen hd) _ hj _
  rw [hem]
  rfl

/-- C7 witnessed on `W7`: its only journey's day type 701 has no assignment,
and compilation of `W7` yields no graph. -/
theorem claim_C7_witness :
    ((⟨[⟨401, 10, 12⟩, ⟨402, 30, 32⟩], 701, 201, "bus"⟩ : ServiceJourney) ∈
      allJourneys W7) ∧
    lookup (buildDayTypeAssignments W7) 701 = none ∧
    from_data W7 = none :=
  ⟨by decide, by rfl,
    claim_C7 W7 ⟨[⟨401, 10, 12⟩, ⟨402, 30, 32⟩], 701, 201, "bus"⟩ (by decide)
      (by decide) (by rfl)⟩

/-! Edge-building infrastructure. -/

theorem processWindow_some (r : Resolver) (j : ServiceJourney) (em : EdgeMap)
    (w : TimetabledPassingTime × TimetabledPassingTime) (em' : EdgeMap)
    (h : processWindow r j em w = some em') :
    ∃ preRef startIdx curRef endIdx dta lineRef line auth gidx,
      lookup r.point_map w.1.stop_point_in_journey_pattern = some preRef ∧
      lookup r.ref_to_node_idx preRef = some startIdx ∧
      lookup r.point_map w.2.stop_point_in_journey_pattern = some curRef ∧
      lookup r.ref_to_node_idx curRef = some endIdx ∧
      lookup r.day_type_assignments j.day_type = some dta ∧
      lookup r.pattern_ref_to_line j.pattern_ref = some lineRef ∧
      lookup r.lines lineRef = some line ∧
      lookup r.authorities line.authority = some auth ∧
      lookup r.period_map dta.operating_period = some gidx ∧
      em' = pushJourney em (startIdx.node, endIdx.node)
        ⟨w.1.departure, w.2.arrival, j.transport_mode, gidx, line.short_name,
          auth.short_name⟩ := by
  unfold processWindow at h
  split at h
  next => exact Option.noConfusion h
  next preRef h1 =>
  split at h
  next => exact Option.noConfusion h
  next startIdx h2 =>
  split at h
  next => exact Option.noConfusion h
  next curRef h3 =>
  split at h
  next => exact Option.noConfusion h
  next endIdx h4 =>
  split at h
  next => exact Option.noConfusion h
  next dta h5 =>
  split at h
  next => exact Option.noConfusion h
  next lineRef h6 =>
  split at h
  next => exact Option.noConfusion h
  next line h7 =>
  split at h
  next => exact Option.noConfusion h
  next auth h8 =>
  split at h
  next => exact Option.noConfusion h
  next gidx h9 =>
  exact ⟨preRef, startIdx, curRef, endIdx, dta, lineRef, line, auth, gidx,
    h1, h2, h3, h4, h5, h6, h7, h8, h9, (Option.some.inj h).symm⟩

theorem lookup_pushJourney_isSome (k : Nat × Nat) (j : Journey) :
    ∀ (em : EdgeMap) (k' : Nat × Nat),
      (lookup (pushJourney em k j) k').isSome =
        ((lookup em k').isSome || decide (k = k')) := by
  intro em
  induction em with
  | nil =>
      intro k'
      rw [show pushJourney [] k j = [(k, [j])] from rfl, lookup_cons, lookup_nil]
      by_cases hk : k = k'
      · rw [if_pos hk]
        simp [hk]
      · rw [if_neg hk]
        simp [hk]
  | cons p rest ih =>
      intro k'
      obtain ⟨k0, js⟩ := p
      show (lookup (if k0 = k then (k0, js ++ [j]) :: rest
        else (k0, js) :: pushJourney rest k j) k').isSome = _
      by_cases h0 : k0 = k
      · rw [if_pos h0, lookup_cons, lookup_cons]
        by_cases h1 : k0 = k'
        · rw [if_pos h1, if_pos h1]
          simp
        · rw [if_neg h1, if_neg h1]
          have : ¬ k = k' := fun hc => h1 (h0.trans hc)
          simp [this]
      · rw [if_neg h0, lookup_cons, lookup_cons]
        by_cases h1 : k0 = k'
        · rw [if_pos h1, if_pos h1]
          simp
        · rw [if_neg h1, if_neg h1]
          exact ih k'

theorem pushJourney_keys (k : Nat × Nat) (j : Journey) :
    ∀ em : EdgeMap, (pushJourney em k j).map (·.1) =
      if (lookup em k).isSome then em.map (·.1) else em.map (·.1) ++ [k] := by
  intro em
  induction em with
  | nil =>
      rw [show pushJourney [] k j = [(k, [j])] from rfl, lookup_nil]
      rfl
  | cons p rest ih =>
      obtain ⟨k0, js⟩ := p
      show (if k0 = k then (k0, js ++ [j]) :: rest
        else (k0, js) :: pushJourney rest k j).map (·.1) = _
      rw [lookup_cons]
      by_cases h0 : k0 = k
      · rw [if_pos h0, if_pos h0]
        simp
      · rw [if_neg h0, if_neg h0, List.map_cons, List.map_cons, ih]
        by_cases h1 : (lookup rest k).isSome
        · rw [if_pos h1, if_pos h1]
        · rw [if_neg h1, if_neg h1]
          rfl

theorem lookup_none_not_mem_keys {α β : Type} [DecidableEq α]
    {m : List (α × β)} {k : α} (h : lookup m k = none) : k ∉ m.map (·.1) := by
  intro hmem
  obtain ⟨p, hp, hpk⟩ := List.mem_map.mp hmem
  unfold lookup at h
  rw [Option.map_eq_none', List.find?_eq_none] at h
  exact h p hp (by simpa using hpk)

theorem pushJourney_count (k : Nat × Nat) (j : Journey) :
    ∀ em : EdgeMap, emJourneyCount (pushJourney em k j) = emJourneyCount em + 1 := by
  intro em
  induction em with
  | nil => rfl
  | cons p rest ih =>
      obtain ⟨k0, js⟩ := p
      show emJourneyCount (if k0 = k then (k0, js ++ [j]) :: rest
        else (k0, js) :: pushJourney rest k j) = _
      by_cases h0 : k0 = k
      · rw [if_pos h0]
        unfold emJourneyCount
        simp
        omega
      · rw [if_neg h0]
        unfold emJourneyCount at ih ⊢
        simp only [List.map_cons, List.sum_cons, ih]
        omega

theorem pushJourney_mem (k : Nat × Nat) (j : Journey) :
    ∀ (em : EdgeMap), ∀ ke ∈ pushJourney em k j,
      ke.1 = k ∨ ∃ js, (ke.1, js) ∈ em := by
  intro em
  induction em with
  | nil =>
      intro ke hke
      rcases List.mem_cons.mp hke with hk | hk
      · left
        rw [hk]
      · cases hk
  | cons p rest ih =>
      obtain ⟨k0, js⟩ := p
      intro ke hke
      rw [show pushJourney ((k0, js) :: rest) k j = if k0 = k then
        (k0, js ++ [j]) :: rest else (k0, js) :: pushJourney rest k j from
          rfl] at hke
      by_cases h0 : k0 = k
      · rw [if_pos h0] at hke
        rcases List.mem_cons.mp hke with hk | hk
        · left
          rw [hk, h0]
        · right
          exact ⟨ke.2, List.mem_cons_of_mem _ (by simpa using hk)⟩
      · rw [if_neg h0] at hke
        rcases List.mem_cons.mp hke with hk | hk
        · right
          refine ⟨js, ?_⟩
          rw [hk]
          exact List.mem_cons_self _ _
        · rcases ih ke hk with hl | ⟨js2, hjs2⟩
          · exact Or.inl hl
          · exact Or.inr ⟨js2, List.mem_cons_of_mem _ hjs2⟩

theorem pushJourney_journeys (k : Nat × Nat) (j : Journey) :
    ∀ (em : EdgeMap), ∀ ke ∈ pushJourney em k j, ∀ jr ∈ ke.2,
      jr = j ∨ ∃ js, (ke.1, js) ∈ em ∧ jr ∈ js := by
  intro em
  induction em with
  | nil =>
      intro ke hke jr hjr
      rcases List.mem_cons.mp hke with hk | hk
      · left
        rw [hk] at hjr
        simpa using hjr
      · cases hk
  | cons p rest ih =>
      obtain ⟨k0, js⟩ := p
      intro ke hke jr hjr
      rw [show pushJourney ((k0, js) :: rest) k j = if k0 = k then
        (k0, js ++ [j]) :: rest else (k0, js) :: pushJourney rest k j from
          rfl] at hke
      by_cases h0 : k0 = k
      · rw [if_pos h0] at hke
        rcases List.mem_cons.mp hke with hk | hk
        · rw [hk] at hjr
          rcases List.mem_append.mp hjr with hj2 | hj2
          · right
            refine ⟨js, ?_, hj2⟩
            rw [hk]
            exact List.mem_cons_self _ _
          · left
            simpa using hj2
        · right
          exact ⟨ke.2, List.mem_cons_of_mem _ (by simpa using hk), hjr⟩
      · rw [if_neg h0] at hke
        rcases List.mem_cons.mp hke with hk | hk
        · right
          refine ⟨js, ?_, ?_⟩
          · rw [hk]
            exact List.mem_cons_self _ _
          · rw [hk] at hjr
            exact hjr
        · rcases ih ke hk jr hjr with hl | ⟨js2, hjs2, hjr2⟩
          · exact Or.inl hl
          · exact Or.inr ⟨js2, List.mem_cons_of_mem _ hjs2, hjr2⟩

theorem foldlM_option_inv {σ α : Type} (f : σ → α → Option σ) (P : σ → Prop)
    (hstep : ∀ s a s', f s a = some s' → P s → P s') :
    ∀ (l : List α) (s0 s' : σ), l.foldlM f s0 = some s' → P s0 → P s' := by
  intro l
  induction l with
  | nil =>
      intro s0 s' h hp
      rw [List.foldlM_nil] at h
      exact (Option.some.inj h) ▸ hp
  | cons a rest ih =>
      intro s0 s' h hp
      rw [List.foldlM_cons] at h
      cases hf : f s0 a with
      | none =>
          rw [hf] at h
          exact Option.noConfusion h
      | some s1 =>
          rw [hf] at h
          exact ih s1 s' h (hstep s0 a s1 hf hp)

theorem foldlM_option_count {σ α : Type} (f : σ → α → Option σ)
    (cnt : σ → Nat) (δ : α → Nat)
    (hstep : ∀ s a s', f s a = some s' → cnt s' = cnt s + δ a) :
    ∀ (l : List α) (s0 s' : σ), l.foldlM f s0 = some s' →
      cnt s' = cnt s0 + (l.map δ).sum := by
  intro l
  induction l with
  | nil =>
      intro s0 s' h
      rw [List.foldlM_nil] at h
      rw [← Option.some.inj h]
      simp
  | cons a rest ih =>
      intro s0 s' h
      rw [List.foldlM_cons] at h
      cases hf : f s0 a with
      | none =>
          rw [hf] at h
          exact Option.noConfusion h
      | some s1 =>
          rw [hf] at h
          rw [ih s1 s' h, hstep s0 a s1 hf, List.map_cons, List.sum_cons]
          omega

theorem foldlM_option_bool {σ α K : Type} (f : σ → α → Option σ)
    (b : σ → K → Bool) (occ : α → K → Bool)
    (hstep : ∀ s a s' k, f s a = some s' → b s' k = (b s k || occ a k)) :
    ∀ (l : List α) (s0 s' : σ) (k : K), l.foldlM f s0 = some s' →
      b s' k = (b s0 k || l.any fun a => occ a k) := by
  intro l
  induction l with
  | nil =>
      intro s0 s' k h
      rw [List.foldlM_nil] at h
      rw [← Option.some.inj h]
      simp
  | cons a rest ih =>
      intro s0 s' k h
      rw [List.foldlM_cons] at h
      cases hf : f s0 a with
      | none =>
          rw [hf] at h
          exact Option.noConfusion h
      | some s1 =>
          rw [hf] at h
          rw [ih s1 s' k h, hstep s0 a s1 k hf, List.any_cons,
            Bool.or_assoc]

theorem mapM_option_forall₂ {α β : Type} (f : α → Option β) :
    ∀ (l : List α) (l' : List β), l.mapM f = some l' →
      List.Forall₂ (fun a b => f a = some b) l l' := by
  intro l
  induction l with
  | nil =>
      intro l' h
      rw [List.mapM_nil] at h
      rw [← Option.some.inj h]
      exact List.Forall₂.nil
  | cons a rest ih =>
      intro l' h
      rw [List.mapM_cons] at h
      cases hf : f a with
      | none =>
          rw [hf] at h
          exact Option.noConfusion h
      | some b =>
          rw [hf] at h
          cases hrest : rest.mapM f with
          | none =>
              rw [hrest] at h
              exact Option.noConfusion h
          | some bs =>
              rw [hrest] at h
              have : b :: bs = l' := Option.some.inj h
              rw [← this]
              exact List.Forall₂.cons hf (ih bs hrest)

theorem forall₂_mem_right {α β : Type} {R : α → β → Prop} :
    ∀ {l : List α} {l' : List β}, List.Forall₂ R l l' →
      ∀ b ∈ l', ∃ a ∈ l, R a b := by
  intro l l' h
  induction h with
  | nil => intro b hb; cases hb
  | cons hr _ ih =>
      intro b hb
      rcases List.mem_cons.mp hb with hb1 | hb2
      · exact ⟨_, List.mem_cons_self _ _, hb1 ▸ hr⟩
      · obtain ⟨a, ha, har⟩ := ih b hb2
        exact ⟨a, List.mem_cons_of_mem _ ha, har⟩

theorem forall₂_filter_length {α β : Type} {R : α → β → Prop}
    (q : α → Bool) (p : β → Bool) :
    ∀ {l : List α} {l' : List β}, List.Forall₂ R l l' →
      (∀ a b, R a b → q a = p b) →
      (l.filter q).length = (l'.filter p).length := by
  intro l l' h
  induction h with
  | nil => intro _; rfl
  | cons hr hrest ih =>
      intro hqp
      rw [List.filter_cons, List.filter_cons]
      rw [hqp _ _ hr]
      cases p _ <;> simp [ih hqp]

theorem forall₂_sum_map {α β : Type} {R : α → β → Prop}
    (f : α → Nat) (g : β → Nat) :
    ∀ {l : List α} {l' : List β}, List.Forall₂ R l l' →
      (∀ a b, R a b → f a = g b) →
      (l.map f).sum = (l'.map g).sum := by
  intro l l' h
  induction h with
  | nil => intro _; rfl
  | cons hr hrest ih =>
      intro hfg
      rw [List.map_cons, List.map_cons, List.sum_cons, List.sum_cons,
        hfg _ _ hr, ih hfg]

theorem filter_key_count {α β : Type} [DecidableEq α] :
    ∀ (m : List (α × β)) (k : α), (m.map (·.1)).Nodup →
      (m.filter fun p => decide (p.1 = k)).length =
        if (lookup m k).isSome then 1 else 0 := by
  intro m
  induction m with
  | nil => intro k _; rfl
  | cons p rest ih =>
      intro k hnd
      rw [List.map_cons, List.nodup_cons] at hnd
      rw [List.filter_cons, lookup_cons]
      by_cases hk : p.1 = k
      · rw [if_pos (by simpa using hk), if_pos hk]
        have hrest : (rest.filter fun p => decide (p.1 = k)).length = 0 := by
          rw [List.length_eq_zero, List.filter_eq_nil]
          intro q hq hqk
          exact hnd.1 (hk ▸ (of_decide_eq_true hqk) ▸
            List.mem_map.mpr ⟨q, hq, rfl⟩)
        simp [hrest]
      · rw [if_neg (by simpa using hk), if_neg hk]
        exact ih k hnd.2

/-! Calendar compaction infrastructure. -/

theorem compactEdge_inv (data : List NetexData) (k : Nat × Nat)
    (js : List Journey) (e : Edge) (h : compactEdge data k js = some e) :
    ∃ ops js',
      ((List.range (buildGlobalToLocal js).length).mapM fun l =>
        ((buildGlobalToLocal js).find? fun p => decide (p.2 = l)).bind fun p =>
          (lookup_operating_period data p.1).map fun uic_op =>
            (⟨uic_op.from_, uic_op.to_, base64encode uic_op.valid_day_bits,
              uic_op.valid_day_bits⟩ : OperatingPeriod)) = some ops ∧
      (js.mapM fun j =>
        (lookup (buildGlobalToLocal js) j.operating_period).map fun l =>
          { j with operating_period := l }) = some js' ∧
      e = ⟨k.1, k.2, ⟨js', ops⟩⟩ := by
  unfold compactEdge at h
  obtain ⟨ops, hops, h2⟩ := Option.bind_eq_some.mp h
  obtain ⟨js', hjs', h3⟩ := Option.map_eq_some'.mp h2
  exact ⟨ops, js', hops, hjs', h3.symm⟩

theorem buildGlobalToLocal_char (js : List Journey) :
    buildGlobalToLocal js =
      ((dedupFirstBy (fun j => j.operating_period) js).enum.map
        fun ia => (ia.2.operating_period, ia.1)).reverse :=
  fw_counter_char (fun j : Journey => j.operating_period) (fun n _ => n) js

theorem buildGlobalToLocal_length (js : List Journey) :
    (buildGlobalToLocal js).length =
      (dedupFirstBy (fun j => j.operating_period) js).length := by
  rw [buildGlobalToLocal_char]
  simp

theorem g2l_keys_nodup (js : List Journey) :
    ((buildGlobalToLocal js).map (·.1)).Nodup := by
  rw [buildGlobalToLocal_char, List.map_reverse, List.nodup_reverse,
    List.map_map]
  have he : ((fun p : Nat × Nat => p.1) ∘
      fun ia : Nat × Journey => (ia.2.operating_period, ia.1)) =
      (fun j : Journey => j.operating_period) ∘ Prod.snd := rfl
  rw [he, ← List.map_map, List.enum_map_snd]
  exact dedupFirstBy_nodup _ _

theorem g2l_value_lt (js : List Journey) (g v : Nat)
    (h : lookup (buildGlobalToLocal js) g = some v) :
    v < (buildGlobalToLocal js).length := by
  have hm := lookup_mem h
  rw [buildGlobalToLocal_char] at hm
  rw [List.mem_reverse] at hm
  obtain ⟨ia, hia, hpx⟩ := List.mem_map.mp hm
  obtain ⟨i, x⟩ := ia
  obtain ⟨hi, _⟩ := List.mem_enum hia
  have hvi : i = v := congrArg Prod.snd hpx
  rw [buildGlobalToLocal_length, ← hvi]
  exact hi

theorem g2l_lookup_at (js : List Journey) (i : Nat)
    (hi : i < (dedupFirstBy (fun j => j.operating_period) js).length) :
    lookup (buildGlobalToLocal js)
      (dedupFirstBy (fun j => j.operating_period) js)[i].operating_period =
      some i := by
  have hnd := g2l_keys_nodup js
  rw [buildGlobalToLocal_char] at hnd ⊢
  apply lookup_unique _ _ _ hnd
  rw [List.mem_reverse]
  refine List.mem_map.mpr
    ⟨(i, (dedupFirstBy (fun j => j.operating_period) js)[i]), ?_, rfl⟩
  have hlt : i < (dedupFirstBy (fun j => j.operating_period) js).enum.length := by
    rw [List.enum_length]
    exact hi
  have := List.getElem_mem hlt
  rw [List.getElem_enum] at this
  exact this

theorem g2l_lookup_mem (js : List Journey) (j : Journey) (hj : j ∈ js) :
    lookup (buildGlobalToLocal js) j.operating_period =
      some ((dedupFirstBy id (js.map (·.operating_period))).indexOf
        j.operating_period) := by
  have hD : dedupFirstBy id (js.map (·.operating_period)) =
      (dedupFirstBy (fun j => j.operating_period) js).map
        (fun j => j.operating_period) :=
    dedupFirstBy_map id (fun j : Journey => j.operating_period) js
  have hg : j.operating_period ∈ dedupFirstBy id (js.map (·.operating_period)) :=
    mem_dedupFirstBy_id _ _ (List.mem_map.mpr ⟨j, hj, rfl⟩)
  have hiD : (dedupFirstBy id (js.map (·.operating_period))).indexOf
      j.operating_period <
      (dedupFirstBy id (js.map (·.operating_period))).length :=
    List.indexOf_lt_length.mpr hg
  have hlen : (dedupFirstBy id (js.map (·.operating_period))).length =
      (dedupFirstBy (fun j => j.operating_period) js).length := by
    rw [hD, List.length_map]
  have hi2 : (dedupFirstBy id (js.map (·.operating_period))).indexOf
      j.operating_period <
      (dedupFirstBy (fun j => j.operating_period) js).length := by
    rw [← hlen]
    exact hiD
  have h2 : (dedupFirstBy id (js.map (·.operating_period)))[(dedupFirstBy id
      (js.map (·.operating_period))).indexOf j.operating_period]? =
      some j.operating_period := by
    rw [List.getElem?_eq_getElem hiD]
    have h3 := List.indexOf_get (a := j.operating_period)
      (l := dedupFirstBy id (js.map (·.operating_period))) hiD
    rw [List.get_eq_getElem] at h3
    rw [h3]
  rw [hD, List.getElem?_map] at h2
  obtain ⟨x, hx, hxop⟩ := Option.map_eq_some'.mp h2
  have hidx : (dedupFirstBy id (js.map (·.operating_period))).indexOf
      j.operating_period =
      ((dedupFirstBy (fun j => j.operating_period) js).map
        (fun j => j.operating_period)).indexOf j.operating_period := by
    rw [hD]
  rw [← hidx] at hx
  have hDx : (dedupFirstBy (fun j => j.operating_period)
      js)[(dedupFirstBy id (js.map (·.operating_period))).indexOf
        j.operating_period] = x := by
    rw [List.getElem?_eq_getElem hi2] at hx
    exact Option.some.inj hx
  have hfin := g2l_lookup_at js _ hi2
  rw [hDx, hxop] at hfin
  exact hfin

/-! Edge-map invariants through the build phase. -/

theorem processWindow_keys_lt (data : List NetexData) (j : ServiceJourney)
    (em em' : EdgeMap) (w : TimetabledPassingTime × TimetabledPassingTime)
    (h : processWindow (mkResolver data (dedupData data)) j em w = some em')
    (hP : ∀ ke ∈ em, ke.1.1 < (dedupData data).counter ∧
      ke.1.2 < (dedupData data).counter) :
    ∀ ke ∈ em', ke.1.1 < (dedupData data).counter ∧
      ke.1.2 < (dedupData data).counter := by
  obtain ⟨preRef, startIdx, curRef, endIdx, dta, lineRef, line, auth, gidx,
    h1, h2, h3, h4, _, _, _, _, _, hem⟩ := processWindow_some _ _ _ _ _ h
  intro ke hke
  rw [hem] at hke
  rcases pushJourney_mem _ _ em ke hke with hk | ⟨js, hjs⟩
  · rw [hk]
    exact ⟨ref_to_node_idx_lt data preRef startIdx h2,
      ref_to_node_idx_lt data curRef endIdx h4⟩
  · exact hP (ke.1, js) hjs

theorem buildEdgeMap_keys_lt (data : List NetexData) (em : EdgeMap)
    (h : buildEdgeMap data (mkResolver data (dedupData data)) = some em) :
    ∀ ke ∈ em, ke.1.1 < (dedupData data).counter ∧
      ke.1.2 < (dedupData data).counter := by
  unfold buildEdgeMap at h
  refine foldlM_option_inv _ (fun em => ∀ ke ∈ em,
    ke.1.1 < (dedupData data).counter ∧ ke.1.2 < (dedupData data).counter)
    ?_ _ _ _ h (fun ke hke => absurd hke (List.not_mem_nil ke))
  intro s a s' hf hp
  unfold processJourney at hf
  exact foldlM_option_inv _ (fun em => ∀ ke ∈ em,
    ke.1.1 < (dedupData data).counter ∧ ke.1.2 < (dedupData data).counter)
    (fun s w s' hw hp => processWindow_keys_lt data a s s' w hw hp) _ _ _ hf hp

theorem pushJourney_keys_nodup (em : EdgeMap) (k : Nat × Nat) (j : Journey)
    (h : (em.map (·.1)).Nodup) : ((pushJourney em k j).map (·.1)).Nodup := by
  rw [pushJourney_keys]
  cases hk : lookup em k with
  | some v => simpa using h
  | none =>
      rw [if_neg (by simp [hk])]
      rw [List.nodup_append]
      refine ⟨h, List.nodup_singleton _, ?_⟩
      intro a ha ha2
      have haa : a = k := by simpa using ha2
      exact lookup_none_not_mem_keys hk (haa ▸ ha)

theorem processWindow_keys_nodup (r : Resolver) (j : ServiceJourney)
    (em em' : EdgeMap) (w : TimetabledPassingTime × TimetabledPassingTime)
    (h : processWindow r j em w = some em')
    (hnd : (em.map (·.1)).Nodup) : (em'.map (·.1)).Nodup := by
  obtain ⟨preRef, startIdx, curRef, endIdx, dta, lineRef, line, auth, gidx,
    _, _, _, _, _, _, _, _, _, hem⟩ := processWindow_some _ _ _ _ _ h
  rw [hem]
  exact pushJourney_keys_nodup em _ _ hnd

theorem buildEdgeMap_keys_nodup (data : List NetexData) (em : EdgeMap)
    (h : buildEdgeMap data (mkResolver data (dedupData data)) = some em) :
    (em.map (·.1)).Nodup := by
  unfold buildEdgeMap at h
  refine foldlM_option_inv _ (fun em : EdgeMap => (em.map (·.1)).Nodup)
    ?_ _ _ _ h List.nodup_nil
  intro s a s' hf hp
  unfold processJourney at hf
  exact foldlM_option_inv _ (fun em : EdgeMap => (em.map (·.1)).Nodup)
    (fun s w s' hw hp => processWindow_keys_nodup _ a s s' w hw hp) _ _ _ hf hp

theorem sum_map_one {α : Type} : ∀ l : List α,
    (l.map fun _ => (1 : Nat)).sum = l.length := by
  intro l
  induction l with
  | nil => rfl
  | cons a rest ih =>
      rw [List.map_cons, List.sum_cons, ih, List.length_cons]
      omega

theorem windows2_length {α : Type} : ∀ l : List α,
    (windows2 l).length = l.length - 1
  | [] => rfl
  | [_] => rfl
  | a :: b :: rest => by
      show ((a, b) :: windows2 (b :: rest)).length = _
      rw [List.length_cons, windows2_length (b :: rest)]
      simp

theorem processWindow_count (r : Resolver) (j : ServiceJourney)
    (em em' : EdgeMap) (w : TimetabledPassingTime × TimetabledPassingTime)
    (h : processWindow r j em w = some em') :
    emJourneyCount em' = emJourneyCount em + 1 := by
  obtain ⟨preRef, startIdx, curRef, endIdx, dta, lineRef, line, auth, gidx,
    _, _, _, _, _, _, _, _, _, hem⟩ := processWindow_some _ _ _ _ _ h
  rw [hem, pushJourney_count]

theorem buildEdgeMap_count (data : List NetexData) (em : EdgeMap)
    (h : buildEdgeMap data (mkResolver data (dedupData data)) = some em) :
    emJourneyCount em =
      ((allJourneys data).map fun j => (windows2 j.passing_times).length).sum := by
  unfold buildEdgeMap at h
  have hmain := foldlM_option_count _ emJourneyCount
    (fun j : ServiceJourney => (windows2 j.passing_times).length) ?_ _ _ _ h
  · rw [hmain, show emJourneyCount [] = 0 from rfl, Nat.zero_add]
  · intro s a s' hf
    unfold processJourney at hf
    have h2 := foldlM_option_count _ emJourneyCount (fun _ => 1)
      (fun s w s' hw => processWindow_count _ a s s' w hw) _ _ _ hf
    rw [h2, sum_map_one]

theorem sum_windows_eq_totalWindows : ∀ l : List ServiceJourney,
    (l.map fun j => (windows2 j.passing_times).length).sum =
      ((l.filter fun j => decide (2 ≤ j.passing_times.length)).map
        fun j => j.passing_times.length - 1).sum := by
  intro l
  induction l with
  | nil => rfl
  | cons j rest ih =>
      rw [List.map_cons, List.sum_cons, List.filter_cons]
      by_cases hlen : 2 ≤ j.passing_times.length
      · rw [if_pos (by simpa using hlen), List.map_cons, List.sum_cons,
          windows2_length, ih]
      · rw [if_neg (by simpa using hlen)]
        have hz : (windows2 j.passing_times).length = 0 := by
          rw [windows2_length]
          omega
        rw [hz, ih, Nat.zero_add]

/-- C6: the total number of journey records across all edges equals the
total number of adjacent-stop windows over service journeys with at least
two passing times; journeys with fewer than two passing times contribute no
windows (hence no journey records and no edges). -/
theorem claim_C6 (data : List NetexData) (g : Graph)
    (h : from_data data = some g) :
    totalJourneys g = totalWindows data ∧
    ∀ j ∈ allJourneys data, j.passing_times.length < 2 →
      windows2 j.passing_times = [] := by
  constructor
  · obtain ⟨em, hem, edges, hedges, hg⟩ := from_data_inv data g h
    have hcnt := buildEdgeMap_count data em hem
    have hf₂ := mapM_option_forall₂ _ em edges hedges
    have hsum : emJourneyCount em = totalJourneys g := by
      unfold emJourneyCount totalJourneys
      rw [hg]
      refine forall₂_sum_map _ _ hf₂ ?_
      intro ke e hce
      obtain ⟨ops, js', hops, hjs', he⟩ := compactEdge_inv data ke.1 ke.2 e hce
      have hlen := (mapM_option_forall₂ _ _ _ hjs').length_eq
      rw [he]
      exact hlen
    rw [← hsum, hcnt]
    unfold totalWindows
    exact sum_windows_eq_totalWindows (allJourneys data)
  · intro j _ hlen
    rcases hp : j.passing_times with _ | ⟨a, _ | ⟨b, rest⟩⟩
    · rfl
    · rfl
    · exfalso
      rw [hp] at hlen
      simp at hlen
      omega

/-- C6 witnessed on `W`: one journey with two passing times yields exactly
one journey record. -/
theorem claim_C6_witness :
    from_data W = some GW ∧
      (totalJourneys GW = totalWindows W ∧
      ∀ j ∈ allJourneys W, j.passing_times.length < 2 →
        windows2 j.passing_times = []) :=
  ⟨by rfl, claim_C6 W GW (by rfl)⟩

/-- C3: every edge's endpoints are valid node indices and every journey's
local operating-period index is a valid index into its owning edge's period
table. -/
theorem claim_C3 (data : List NetexData) (g : Graph)
    (h : from_data data = some g) :
    (∀ e ∈ g.edges, e.start_node < g.nodes.length ∧
      e.end_node < g.nodes.length) ∧
    (∀ e ∈ g.edges, ∀ jr ∈ e.timetable.journeys,
      jr.operating_period < e.timetable.periods.length) := by
  obtain ⟨em, hem, edges, hedges, hg⟩ := from_data_inv data g h
  have hf₂ := mapM_option_forall₂ _ em edges hedges
  have hedges_mem : ∀ e ∈ g.edges, ∃ ke ∈ em,
      compactEdge data ke.1 ke.2 = some e := by
    intro e he
    rw [hg] at he
    exact forall₂_mem_right hf₂ e he
  have hnl : g.nodes.length = (dedupData data).counter := by
    rw [hg]
    exact buildNodes_length data _
  have hkeys := buildEdgeMap_keys_lt data em hem
  constructor
  · intro e he
    obtain ⟨ke, hkem, hce⟩ := hedges_mem e he
    obtain ⟨ops, js', hops, hjs', he2⟩ := compactEdge_inv data ke.1 ke.2 e hce
    have hb := hkeys ke hkem
    rw [he2, hnl]
    exact hb
  · intro e he jr hjr
    obtain ⟨ke, hkem, hce⟩ := hedges_mem e he
    obtain ⟨ops, js', hops, hjs', he2⟩ := compactEdge_inv data ke.1 ke.2 e hce
    have hops_len : ops.length = (buildGlobalToLocal ke.2).length := by
      have h5 := (mapM_option_forall₂ _ _ _ hops).length_eq
      rw [List.length_range] at h5
      exact h5.symm
    rw [he2] at hjr ⊢
    obtain ⟨j0, hj0, hj0r⟩ :=
      forall₂_mem_right (mapM_option_forall₂ _ _ _ hjs') jr hjr
    obtain ⟨v, hv, hjr2⟩ := Option.map_eq_some'.mp hj0r
    have hvlt := g2l_value_lt ke.2 j0.operating_period v hv
    rw [← hjr2]
    show v < ops.length
    rw [hops_len]
    exact hvlt

/-- C3 witnessed on `W`. -/
theorem claim_C3_witness :
    from_data W = some GW ∧
      ((∀ e ∈ GW.edges, e.start_node < GW.nodes.length ∧
        e.end_node < GW.nodes.length) ∧
      (∀ e ∈ GW.edges, ∀ jr ∈ e.timetable.journeys,
        jr.operating_period < e.timetable.periods.length)) :=
  ⟨by rfl, claim_C3 W GW (by rfl)⟩

theorem processWindow_hasKey (data : List NetexData) (j : ServiceJourney)
    (em em' : EdgeMap) (w : TimetabledPassingTime × TimetabledPassingTime)
    (k : Nat × Nat)
    (h : processWindow (mkResolver data (dedupData data)) j em w = some em') :
    hasKey em' k = (hasKey em k ||
      (decide (resolveStop data w.1.stop_point_in_journey_pattern = some k.1) &&
        decide (resolveStop data w.2.stop_point_in_journey_pattern = some k.2))) := by
  obtain ⟨preRef, startIdx, curRef, endIdx, dta, lineRef, line, auth, gidx,
    h1, h2, h3, h4, _, _, _, _, _, hem⟩ := processWindow_some _ _ _ _ _ h
  have h1' : lookup (buildPointMap data) w.1.stop_point_in_journey_pattern =
      some preRef := h1
  have h2' : lookup (dedupData data).ref_to_node_idx preRef = some startIdx := h2
  have h3' : lookup (buildPointMap data) w.2.stop_point_in_journey_pattern =
      some curRef := h3
  have h4' : lookup (dedupData data).ref_to_node_idx curRef = some endIdx := h4
  have hr1 : resolveStop data w.1.stop_point_in_journey_pattern =
      some startIdx.node := by
    unfold resolveStop
    rw [h1', Option.some_bind, h2']
    rfl
  have hr2 : resolveStop data w.2.stop_point_in_journey_pattern =
      some endIdx.node := by
    unfold resolveStop
    rw [h3', Option.some_bind, h4']
    rfl
  rw [hem]
  unfold hasKey
  rw [lookup_pushJourney_isSome, hr1, hr2]
  congr 1
  obtain ⟨k1, k2⟩ := k
  by_cases e1 : startIdx.node = k1 <;> by_cases e2 : endIdx.node = k2 <;>
    simp [e1, e2, Prod.ext_iff]

theorem buildEdgeMap_hasKey (data : List NetexData) (em : EdgeMap)
    (h : buildEdgeMap data (mkResolver data (dedupData data)) = some em)
    (X Y : Nat) : hasKey em (X, Y) = pairOccurs data X Y := by
  unfold buildEdgeMap at h
  have hmain := foldlM_option_bool
    (processJourney (mkResolver data (dedupData data))) hasKey
    (fun (j : ServiceJourney) (k : Nat × Nat) =>
      (windows2 j.passing_times).any fun w =>
        decide (resolveStop data w.1.stop_point_in_journey_pattern = some k.1) &&
          decide (resolveStop data w.2.stop_point_in_journey_pattern = some k.2))
    ?_ (allJourneys data) [] em (X, Y) h
  · rw [hmain]
    show (false || _) = _
    rw [Bool.false_or]
    rfl
  · intro s a s' k hf
    unfold processJourney at hf
    exact foldlM_option_bool _ hasKey
      (fun (w : TimetabledPassingTime × TimetabledPassingTime) (k : Nat × Nat) =>
        decide (resolveStop data w.1.stop_point_in_journey_pattern = some k.1) &&
          decide (resolveStop data w.2.stop_point_in_journey_pattern = some k.2))
      (fun s w s' k hw => processWindow_hasKey data a s s' w k hw) _ _ _ k hf

/-- C2: the edge set carries exactly one edge per ordered canonical node
pair that occurs as an adjacent window of some journey, and no edge for any
pair that never occurs. -/
theorem claim_C2 (data : List NetexData) (g : Graph)
    (h : from_data data = some g) (X Y : Nat) :
    countEdges g X Y = if pairOccurs data X Y then 1 else 0 := by
  obtain ⟨em, hem, edges, hedges, hg⟩ := from_data_inv data g h
  have hnd := buildEdgeMap_keys_nodup data em hem
  have hhk := buildEdgeMap_hasKey data em hem X Y
  have hf₂ := mapM_option_forall₂ _ em edges hedges
  have hfl := forall₂_filter_length (fun ke => decide (ke.1 = (X, Y)))
    (fun e => decide (e.start_node = X) && decide (e.end_node = Y)) hf₂ ?_
  · unfold countEdges
    rw [hg]
    show (edges.filter _).length = _
    rw [← hfl, filter_key_count em (X, Y) hnd]
    rw [show (lookup em (X, Y)).isSome = pairOccurs data X Y from hhk]
  · intro ke e hce
    obtain ⟨ops, js', hops, hjs', he⟩ := compactEdge_inv data ke.1 ke.2 e hce
    rw [he]
    obtain ⟨⟨a, b⟩, js⟩ := ke
    by_cases e1 : a = X <;> by_cases e2 : b = Y <;>
      simp [e1, e2, Prod.ext_iff]

/-- C2 witnessed on `W`: the pair (0, 1) occurs and carries one edge; the
pair (1, 0) never occurs and carries none. -/
theorem claim_C2_witness :
    from_data W = some GW ∧
      countEdges GW 0 1 = (if pairOccurs W 0 1 then 1 else 0) ∧
      countEdges GW 1 0 = (if pairOccurs W 1 0 then 1 else 0) :=
  ⟨by rfl, claim_C2 W GW (by rfl) 0 1, claim_C2 W GW (by rfl) 1 0⟩

/-! The base64 round trip (claim C8). -/

theorem cts_stc : ∀ n < 64, charToSextet (sextetToChar n) = some n := by decide

theorem stc_ne_61 (n : Nat) : sextetToChar n ≠ 61 := by
  unfold sextetToChar
  split_ifs <;> omega

theorem b64_roundtrip_aux : ∀ (n : Nat) (bs : List Nat), bs.length ≤ n →
    (∀ b ∈ bs, b < 256) → base64decode (base64encode bs) = some bs := by
  intro n
  induction n with
  | zero =>
      intro bs hlen _
      have hnil : bs = [] := List.eq_nil_of_length_eq_zero (Nat.le_zero.mp hlen)
      rw [hnil]
      rfl
  | succ n ih =>
      intro bs hlen hb
      rcases bs with _ | ⟨b0, _ | ⟨b1, _ | ⟨b2, rest⟩⟩⟩
      · rfl
      · have hb0 : b0 < 256 := hb b0 (by simp)
        show base64decode [sextetToChar (b0 / 4), sextetToChar (b0 % 4 * 16),
          61, 61] = some [b0]
        unfold base64decode
        rw [if_pos ⟨rfl, rfl, rfl⟩]
        rw [cts_stc (b0 / 4) (by omega), cts_stc (b0 % 4 * 16) (by omega)]
        show some [b0 / 4 * 4 + b0 % 4 * 16 / 16] = some [b0]
        have he : b0 / 4 * 4 + b0 % 4 * 16 / 16 = b0 := by omega
        rw [he]
      · have hb0 : b0 < 256 := hb b0 (by simp)
        have hb1 : b1 < 256 := hb b1 (by simp)
        show base64decode [sextetToChar (b0 / 4),
          sextetToChar (b0 % 4 * 16 + b1 / 16), sextetToChar (b1 % 16 * 4),
          61] = some [b0, b1]
        unfold base64decode
        rw [if_neg fun hc => stc_ne_61 _ hc.1]
        rw [if_pos ⟨rfl, rfl⟩]
        rw [cts_stc (b0 / 4) (by omega),
          cts_stc (b0 % 4 * 16 + b1 / 16) (by omega),
          cts_stc (b1 % 16 * 4) (by omega)]
        show some [b0 / 4 * 4 + (b0 % 4 * 16 + b1 / 16) / 16,
          (b0 % 4 * 16 + b1 / 16) % 16 * 16 + b1 % 16 * 4 / 4] = some [b0, b1]
        have he1 : b0 / 4 * 4 + (b0 % 4 * 16 + b1 / 16) / 16 = b0 := by omega
        have he2 : (b0 % 4 * 16 + b1 / 16) % 16 * 16 + b1 % 16 * 4 / 4 = b1 := by
          omega
        rw [he1, he2]
      · have hb0 : b0 < 256 := hb b0 (by simp)
        have hb1 : b1 < 256 := hb b1 (by simp)
        have hb2 : b2 < 256 := hb b2 (by simp)
        have hrest : base64decode (base64encode rest) = some rest := by
          refine ih rest ?_ fun b hbm => hb b (by simp [hbm])
          have := hlen
          simp only [List.length_cons] at this
          omega
        show base64decode (sextetToChar (b0 / 4) ::
          sextetToChar (b0 % 4 * 16 + b1 / 16) ::
          sextetToChar (b1 % 16 * 4 + b2 / 64) :: sextetToChar (b2 % 64) ::
          base64encode rest) = some (b0 :: b1 :: b2 :: rest)
        unfold base64decode
        rw [if_neg fun hc => stc_ne_61 _ hc.1]
        rw [if_neg fun hc => stc_ne_61 _ hc.1]
        rw [cts_stc (b0 / 4) (by omega),
          cts_stc (b0 % 4 * 16 + b1 / 16) (by omega),
          cts_stc (b1 % 16 * 4 + b2 / 64) (by omega),
          cts_stc (b2 % 64) (by omega), hrest]
        show some ((b0 / 4 * 4 + (b0 % 4 * 16 + b1 / 16) / 16) ::
          ((b0 % 4 * 16 + b1 / 16) % 16 * 16 + (b1 % 16 * 4 + b2 / 64) / 4) ::
          ((b1 % 16 * 4 + b2 / 64) % 4 * 64 + b2 % 64) :: rest) =
          some (b0 :: b1 :: b2 :: rest)
        have he1 : b0 / 4 * 4 + (b0 % 4 * 16 + b1 / 16) / 16 = b0 := by omega
        have he2 : (b0 % 4 * 16 + b1 / 16) % 16 * 16 +
            (b1 % 16 * 4 + b2 / 64) / 4 = b1 := by omega
        have he3 : (b1 % 16 * 4 + b2 / 64) % 4 * 64 + b2 % 64 = b2 := by omega
        rw [he1, he2, he3]

theorem base64_roundtrip (bs : List Nat) (hb : ∀ b ∈ bs, b < 256) :
    base64decode (base64encode bs) = some bs :=
  b64_roundtrip_aux bs.length bs le_rfl hb

theorem lookup_op_mem (data : List NetexData) (gi : Nat)
    (p : UicOperatingPeriod) (h : lookup_operating_period data gi = some p) :
    ∃ d ∈ data, p ∈ d.operating_periods := by
  rw [lookup_op_eq_get?] at h
  have hm := List.get?_mem h
  unfold allPeriods at hm
  exact List.mem_flatMap.mp hm

/-- C8: decoding the base64 `valid_day_bits` of every edge-local operating
period reproduces its raw `valid_day` bytes, and the day-bitmap packing of
"1111111011" is [0x7F, 0x03] (least-significant-bit-first with zero padding). -/
theorem claim_C8 (data : List NetexData) (g : Graph)
    (h : from_data data = some g) (hwf : wfPeriodBytes data) :
    (∀ e ∈ g.edges, ∀ p ∈ e.timetable.periods,
      base64decode p.valid_day_bits = some p.valid_day) ∧
    parse_day_bits [49, 49, 49, 49, 49, 49, 49, 48, 49, 49] = [127, 3] := by
  refine ⟨?_, by decide⟩
  intro e he p hp
  obtain ⟨em, hem, edges, hedges, hg⟩ := from_data_inv data g h
  have he' : e ∈ edges := by rw [hg] at he; exact he
  obtain ⟨ke, hkem, hce⟩ :=
    forall₂_mem_right (mapM_option_forall₂ _ em edges hedges) e he'
  obtain ⟨ops, js', hops, hjs', he2⟩ := compactEdge_inv data ke.1 ke.2 e hce
  rw [he2] at hp
  obtain ⟨l, hl, hlp⟩ := forall₂_mem_right (mapM_option_forall₂ _ _ _ hops) p hp
  obtain ⟨pr, hpr, hpr2⟩ := Option.bind_eq_some.mp hlp
  obtain ⟨uic, huic, hup⟩ := Option.map_eq_some'.mp hpr2
  obtain ⟨d, hd, hpd⟩ := lookup_op_mem data pr.1 uic huic
  have hbytes : ∀ b ∈ uic.valid_day_bits, b < 256 := hwf d hd uic hpd
  rw [← hup]
  show base64decode (base64encode uic.valid_day_bits) =
    some uic.valid_day_bits
  exact base64_roundtrip uic.valid_day_bits hbytes

/-- C8 witnessed on `W`: its single period's bitmap [127, 3] round-trips. -/
theorem claim_C8_witness :
    from_data W = some GW ∧ wfPeriodBytes W ∧
      ((∀ e ∈ GW.edges, ∀ p ∈ e.timetable.periods,
        base64decode p.valid_day_bits = some p.valid_day) ∧
      parse_day_bits [49, 49, 49, 49, 49, 49, 49, 48, 49, 49] = [127, 3]) :=
  ⟨by rfl, by decide, claim_C8 W GW (by rfl) (by decide)⟩

/-! Local period compaction (claim C4). -/

theorem forall₂_map_eq {α β γ : Type} {R : α → β → Prop} (f : α → γ)
    (g : β → γ) : ∀ {l : List α} {l' : List β}, List.Forall₂ R l l' →
      (∀ a ∈ l, ∀ b, R a b → g b = f a) → l'.map g = l.map f := by
  intro l l' h
  induction h with
  | nil => intro _; rfl
  | @cons a b l l' hr hrest ih =>
      intro hf
      rw [List.map_cons, List.map_cons, hf a (List.mem_cons_self _ _) b hr,
        ih fun a ha b hrb => hf a (List.mem_cons_of_mem _ ha) b hrb]

theorem nodup_indexOf_getElem {α : Type} [DecidableEq α] (l : List α)
    (h : l.Nodup) (n : Nat) (hn : n < l.length) : l.indexOf l[n] = n := by
  have hmem : l[n] ∈ l := List.getElem_mem hn
  have hlt : l.indexOf l[n] < l.length := List.indexOf_lt_length.mpr hmem
  have hg := List.indexOf_get (a := l[n]) (l := l) hlt
  rw [List.get_eq_getElem] at hg
  exact (List.Nodup.getElem_inj_iff h).mp hg

theorem map_indexOf_range {α : Type} [DecidableEq α] (l : List α)
    (h : l.Nodup) : l.map (fun a => l.indexOf a) = List.range l.length := by
  apply List.ext_get
  · simp
  · intro n h1 h2
    rw [List.get_eq_getElem, List.get_eq_getElem, List.getElem_map,
      List.getElem_range]
    exact nodup_indexOf_getElem l h n (by simpa using h1)

theorem compacted_ops_dedup (data : List NetexData) (k : Nat × Nat)
    (js : List Journey) (e : Edge) (h : compactEdge data k js = some e) :
    dedupFirstBy id (e.timetable.journeys.map (·.operating_period)) =
      List.range e.timetable.periods.length ∧
    e.timetable.periods.length =
      (dedupFirstBy id (js.map (·.operating_period))).length := by
  obtain ⟨ops, js', hops, hjs', he2⟩ := compactEdge_inv data k js e h
  have hD : dedupFirstBy id (js.map (·.operating_period)) =
      (dedupFirstBy (fun j => j.operating_period) js).map
        (fun j => j.operating_period) :=
    dedupFirstBy_map id (fun j : Journey => j.operating_period) js
  have hDnd : (dedupFirstBy id (js.map (·.operating_period))).Nodup := by
    have := dedupFirstBy_nodup id (js.map (·.operating_period))
    rwa [List.map_id] at this
  have hops_len : ops.length =
      (dedupFirstBy id (js.map (·.operating_period))).length := by
    have h5 := (mapM_option_forall₂ _ _ _ hops).length_eq
    rw [List.length_range] at h5
    rw [← h5, buildGlobalToLocal_length, hD, List.length_map]
  have hmap : js'.map (·.operating_period) =
      js.map fun j => (dedupFirstBy id
        (js.map (·.operating_period))).indexOf j.operating_period := by
    refine forall₂_map_eq _ _ (mapM_option_forall₂ _ _ _ hjs') ?_
    intro a ha b hr
    rw [g2l_lookup_mem js a ha] at hr
    rw [← Option.some.inj hr]
  have hmm : (js.map fun j => (dedupFirstBy id
      (js.map (·.operating_period))).indexOf j.operating_period) =
      (js.map (·.operating_period)).map fun g => (dedupFirstBy id
        (js.map (·.operating_period))).indexOf g := by
    rw [List.map_map]
    rfl
  have hcongr : dedupFirstBy (fun g => id ((dedupFirstBy id
      (js.map (·.operating_period))).indexOf g)) (js.map (·.operating_period)) =
      dedupFirstBy id (js.map (·.operating_period)) := by
    apply dedupFirstBy_congr
    intro a ha b hb
    constructor
    · intro hab
      have hab2 : (dedupFirstBy id (js.map (·.operating_period))).indexOf a =
          (dedupFirstBy id (js.map (·.operating_period))).indexOf b := hab
      exact (List.indexOf_inj (mem_dedupFirstBy_id _ _ ha)
        (mem_dedupFirstBy_id _ _ hb)).mp hab2
    · intro hab
      have hab2 : a = b := hab
      rw [hab2]
  have hfinal : dedupFirstBy id (js'.map (·.operating_period)) =
      List.range (dedupFirstBy id (js.map (·.operating_period))).length := by
    rw [hmap, hmm, dedupFirstBy_map, hcongr, map_indexOf_range _ hDnd]
  constructor
  · rw [he2]
    show dedupFirstBy id (js'.map (·.operating_period)) =
      List.range ops.length
    rw [hfinal, hops_len]
  · rw [he2]
    show ops.length = _
    exact hops_len

/-- C4: after compaction an edge's journeys carry local period indices that
are exactly 0, 1, ..., periods.length - 1 in first-encounter order with no
gaps and no unused entries, and periods.length equals the number of distinct
global period indices referenced by the edge's (pre-compaction) journeys. -/
theorem claim_C4 (data : List NetexData) (g : Graph)
    (h : from_data data = some g) :
    (∀ e ∈ g.edges,
      dedupFirstBy id (e.timetable.journeys.map (·.operating_period)) =
        List.range e.timetable.periods.length) ∧
    ∀ (k : Nat × Nat) (js : List Journey) (e : Edge),
      compactEdge data k js = some e →
      e.timetable.periods.length =
        (dedupFirstBy id (js.map (·.operating_period))).length := by
  constructor
  · intro e he
    obtain ⟨em, hem, edges, hedges, hg⟩ := from_data_inv data g h
    have he' : e ∈ edges := by rw [hg] at he; exact he
    obtain ⟨ke, hkem, hce⟩ :=
      forall₂_mem_right (mapM_option_forall₂ _ em edges hedges) e he'
    exact (compacted_ops_dedup data ke.1 ke.2 e hce).1
  · intro k js e hce
    exact (compacted_ops_dedup data k js e hce).2

/-- C4 witnessed on `W`. -/
theorem claim_C4_witness :
    from_data W = some GW ∧
      ((∀ e ∈ GW.edges,
        dedupFirstBy id (e.timetable.journeys.map (·.operating_period)) =
          List.range e.timetable.periods.length) ∧
      ∀ (k : Nat × Nat) (js : List Journey) (e : Edge),
        compactEdge W k js = some e →
        e.timetable.periods.length =
          (dedupFirstBy id (js.map (·.operating_period))).length) :=
  ⟨by rfl, claim_C4 W GW (by rfl)⟩

end Netex
